import Mathlib

/-! VFPU utility layer (Core/MIPS/MIPSVFPUUtils.h).

A shallow embedding of the inline helpers of `MIPSVFPUUtils.h`:

* the hardware-exact trigonometric helpers `vfpu_sin`, `vfpu_cos`, `vfpu_sincos` and the
  clamp primitive `vfpu_clamp`, over a model of `float` that keeps the special values
  (NaN, the two infinities, the two zeros) and does exact rational arithmetic on finite values;
* the register-code bit helpers `Xpose`, `GetMtx`, `IsMatrixTransposed`, `IsVectorColumn`,
  `TransposeMatrixReg`, over `Int` (unbounded twos-complement integers, so no operation overflows);
* the operand-modifier packers `VFPU_SWIZZLE`, `VFPU_MASK`, `VFPU_ANY_SWIZZLE`, `VFPU_ABS`,
  `VFPU_CONST`, `VFPU_NEGATE`, whose `u32` result is the integer expression reduced modulo
  `2 ^ 32`, and the half-precision layout constants;
* the functions the header only declares (`VFPURewritePrefix`, `GetVectorSize`,
  `GetMatrixSize`, `GetVectorOverlap`, `GetMatrixOverlap`, `Float16ToFloat32`), modelled from
  the specification of the unit;
* the trigonometric helpers once more with every arithmetic result rounded to binary32
  (`vfpu_sin_binary32`, `vfpu_cos_binary32`, `vfpu_sincos_binary32`), for the inputs on which
  rounding changes the range reduction.
-/

namespace VFPU

/-! ## The float model -/

/-- A `float` value: NaN, plus and minus infinity, negative zero, or a finite rational.
`num 0` is positive zero; arithmetic on finite values is exact (no rounding). -/
inductive F32 where
  | nan : F32
  | pinf : F32
  | ninf : F32
  | negZero : F32
  | num (q : ℚ) : F32
deriving DecidableEq

namespace F32

/-- The sign bit of a value (NaN is given sign `false`; it never matters). -/
def signBit : F32 → Bool
  | nan => false
  | pinf => false
  | ninf => true
  | negZero => true
  | num q => decide (q < 0)

/-- The finite value with sign `s` and rational value `q`: a zero keeps the sign `s`. -/
def ofSign (s : Bool) (q : ℚ) : F32 :=
  if q = 0 then (if s then negZero else num 0) else num q

/-- The infinity of sign `s`. -/
def infOf (s : Bool) : F32 := if s then ninf else pinf

/-- Float multiplication `x * y`: NaN is absorbing, infinity times zero is NaN, the sign of
the result is the exclusive or of the signs, finite products are exact. -/
def mul : F32 → F32 → F32
  | nan, _ => nan
  | pinf, nan => nan
  | pinf, pinf => pinf
  | pinf, ninf => ninf
  | pinf, negZero => nan
  | pinf, num b => if b = 0 then nan else infOf (decide (b < 0))
  | ninf, nan => nan
  | ninf, pinf => ninf
  | ninf, ninf => pinf
  | ninf, negZero => nan
  | ninf, num b => if b = 0 then nan else infOf (!decide (b < 0))
  | negZero, nan => nan
  | negZero, pinf => nan
  | negZero, ninf => nan
  | negZero, negZero => num 0
  | negZero, num b => ofSign (!decide (b < 0)) 0
  | num _, nan => nan
  | num a, pinf => if a = 0 then nan else infOf (decide (a < 0))
  | num a, ninf => if a = 0 then nan else infOf (!decide (a < 0))
  | num a, negZero => ofSign (!decide (a < 0)) 0
  | num a, num b => ofSign (xor (decide (a < 0)) (decide (b < 0))) (a * b)

/-- Float subtraction `x - y` (round to nearest): NaN is absorbing, the difference of equal
infinities is NaN, an exact zero difference is `+0.0` except for `(-0.0) - (+0.0) = -0.0`. -/
def sub : F32 → F32 → F32
  | nan, _ => nan
  | pinf, nan => nan
  | pinf, pinf => nan
  | pinf, _ => pinf
  | ninf, nan => nan
  | ninf, ninf => nan
  | ninf, _ => ninf
  | negZero, nan => nan
  | negZero, pinf => ninf
  | negZero, ninf => pinf
  | negZero, negZero => num 0
  | negZero, num b => if b = 0 then negZero else num (0 - b)
  | num _, nan => nan
  | num _, pinf => ninf
  | num _, ninf => pinf
  | num a, negZero => num a
  | num a, num b => num (a - b)

/-- The C library `floorf`: the largest integral value not above the argument; NaN,
the infinities and both zeros are returned unchanged. -/
def floorf : F32 → F32
  | nan => nan
  | pinf => pinf
  | ninf => ninf
  | negZero => negZero
  | num q => num (⌊q⌋ : ℤ)

/-- The comparison `x == y`: false when either side is NaN, and `-0.0 == +0.0`. -/
def feq : F32 → F32 → Bool
  | nan, _ => false
  | pinf, pinf => true
  | pinf, _ => false
  | ninf, ninf => true
  | ninf, _ => false
  | negZero, negZero => true
  | negZero, num b => decide (b = 0)
  | negZero, _ => false
  | num a, negZero => decide (a = 0)
  | num a, num b => decide (a = b)
  | num _, _ => false

/-- The comparison `x <= y`: false when either side is NaN, and `-0.0` orders as `0`. -/
def fle : F32 → F32 → Bool
  | nan, _ => false
  | pinf, pinf => true
  | pinf, _ => false
  | ninf, nan => false
  | ninf, _ => true
  | negZero, nan => false
  | negZero, pinf => true
  | negZero, ninf => false
  | negZero, negZero => true
  | negZero, num b => decide (0 ≤ b)
  | num _, nan => false
  | num _, pinf => true
  | num _, ninf => false
  | num a, negZero => decide (a ≤ 0)
  | num a, num b => decide (a ≤ b)

/-- The comparison `x >= y`, that is `y <= x`. -/
def fge (x y : F32) : Bool := fle y x

/-- The comparison `x > y`: `y <= x` and not `x == y`; false when either side is NaN. -/
def fgt (x y : F32) : Bool := fle y x && !feq x y

end F32

open F32

/-! ## Hardware-exact math -/

/-- The constant `(float)M_PI_2`: the single-precision value nearest to
`1.57079632679489661923`, bit pattern `0x3FC90FDB`, which is `13176795 / 2 ^ 23`. -/
def M_PI_2 : F32 := num (13176795 / 8388608)

/-- Source function `vfpu_sin(angle)`, with the library routine `sinf` as a parameter. -/
def vfpu_sin (sinf : F32 → F32) (angle : F32) : F32 :=
  let angle := sub angle (mul (floorf (mul angle (num (1 / 4)))) (num 4))
  if feq angle (num 0) || feq angle (num 2) then
    num 0
  else if feq angle (num 1) then
    num 1
  else if feq angle (num 3) then
    num (-1)
  else
    let angle := mul angle M_PI_2
    sinf angle

/-- Source function `vfpu_cos(angle)`, with the library routine `cosf` as a parameter. -/
def vfpu_cos (cosf : F32 → F32) (angle : F32) : F32 :=
  let angle := sub angle (mul (floorf (mul angle (num (1 / 4)))) (num 4))
  if feq angle (num 1) || feq angle (num 3) then
    num 0
  else if feq angle (num 0) then
    num 1
  else if feq angle (num 2) then
    num (-1)
  else
    let angle := mul angle M_PI_2
    cosf angle

/-- Source function `vfpu_sincos(angle, sine, cosine)`: the pair `(sine, cosine)` written through the two
reference parameters. `linux` is the truth of `defined(__linux__)`; `sincosf` is the combined
library routine, returning the pair it writes. -/
def vfpu_sincos (linux : Bool) (sincosf : F32 → F32 × F32) (sinf cosf : F32 → F32)
    (angle : F32) : F32 × F32 :=
  let angle := sub angle (mul (floorf (mul angle (num (1 / 4)))) (num 4))
  if feq angle (num 0) then
    (num 0, num 1)
  else if feq angle (num 1) then
    (num 1, num 0)
  else if feq angle (num 2) then
    (num 0, num (-1))
  else if feq angle (num 3) then
    (num (-1), num 0)
  else
    let angle := mul angle M_PI_2
    if linux then sincosf angle else (sinf angle, cosf angle)

/-- Source function `vfpu_clamp(v, min, max)`. -/
def vfpu_clamp (v min max : F32) : F32 :=
  if fge v max then max else (if fle v min then min else v)

/-! ## Register-code helpers -/

/-- Source function `Xpose(v)`: `v ^ 0x20`. -/
def Xpose (v : ℤ) : ℤ := Int.xor v 0x20

/-- Source function `GetMtx(matrixReg)`: `(matrixReg >> 2) & 7`. -/
def GetMtx (matrixReg : ℤ) : ℤ := Int.land (Int.shiftRight matrixReg 2) 7

/-- Source function `IsMatrixTransposed(matrixReg)`: `(matrixReg >> 5) & 1` converted to `bool`. -/
def IsMatrixTransposed (matrixReg : ℤ) : Bool :=
  decide (Int.land (Int.shiftRight matrixReg 5) 1 ≠ 0)

/-- Source function `IsVectorColumn(vectorReg)`: `!((vectorReg >> 5) & 1)`. -/
def IsVectorColumn (vectorReg : ℤ) : Bool :=
  decide (Int.land (Int.shiftRight vectorReg 5) 1 = 0)

/-- Source function `TransposeMatrixReg(matrixReg)`: `matrixReg ^ 0x20`. -/
def TransposeMatrixReg (matrixReg : ℤ) : ℤ := Int.xor matrixReg 0x20

/-! ## Operand-modifier packers -/

/-- Conversion of an `int` expression to `u32`: the value modulo `2 ^ 32`. -/
def toU32 (v : ℤ) : ℕ := (v % 2 ^ 32).toNat

/-- Source function `VFPU_SWIZZLE(x, y, z, w)`: `(x << 0) | (y << 2) | (z << 4) | (w << 6)` as `u32`. -/
def VFPU_SWIZZLE (x y z w : ℤ) : ℕ :=
  toU32 (Int.lor (Int.lor (Int.lor (x <<< (0 : ℤ)) (y <<< (2 : ℤ))) (z <<< (4 : ℤ)))
    (w <<< (6 : ℤ)))

/-- Source function `VFPU_MASK(x, y, z, w)`: `(x << 0) | (y << 1) | (z << 2) | (w << 3)` as `u32`. -/
def VFPU_MASK (x y z w : ℤ) : ℕ :=
  toU32 (Int.lor (Int.lor (Int.lor (x <<< (0 : ℤ)) (y <<< (1 : ℤ))) (z <<< (2 : ℤ)))
    (w <<< (3 : ℤ)))

/-- Source function `VFPU_ANY_SWIZZLE()`: `0x000000FF`. -/
def VFPU_ANY_SWIZZLE : ℕ := 0x000000FF

/-- Source function `VFPU_ABS(x, y, z, w)`: `VFPU_MASK(x, y, z, w) << 8` on `u32`. -/
def VFPU_ABS (x y z w : ℤ) : ℕ := (VFPU_MASK x y z w <<< 8) % 2 ^ 32

/-- Source function `VFPU_CONST(x, y, z, w)`: `VFPU_MASK(x, y, z, w) << 12` on `u32`. -/
def VFPU_CONST (x y z w : ℤ) : ℕ := (VFPU_MASK x y z w <<< 12) % 2 ^ 32

/-- Source function `VFPU_NEGATE(x, y, z, w)`: `VFPU_MASK(x, y, z, w) << 16` on `u32`. -/
def VFPU_NEGATE (x y z w : ℤ) : ℕ := (VFPU_MASK x y z w <<< 16) % 2 ^ 32

/-- Modelled from the spec: the body of `VFPURewritePrefix`, which the header only declares
(`u32 VFPURewritePrefix(int ctrl, u32 remove, u32 add)`). The spec gives
`rewrite_prefix(existing_control_bits, remove_mask, add_mask)` as the pure bit operation
`(existing & ~remove) | add`, with no normalization; `~remove` is the 32-bit complement,
`0xFFFFFFFF ^ remove`. -/
def VFPURewritePrefix (existing remove add : ℕ) : ℕ :=
  (existing &&& (0xFFFFFFFF ^^^ remove)) ||| add

/-! ## Half-precision layout constants -/

/-- Source constant `VFPU_FLOAT16_EXP_MAX`. -/
def VFPU_FLOAT16_EXP_MAX : ℕ := 0x1f

/-- Source constant `VFPU_SH_FLOAT16_SIGN`. -/
def VFPU_SH_FLOAT16_SIGN : ℕ := 15

/-- Source constant `VFPU_MASK_FLOAT16_SIGN`. -/
def VFPU_MASK_FLOAT16_SIGN : ℕ := 0x1

/-- Source constant `VFPU_SH_FLOAT16_EXP`. -/
def VFPU_SH_FLOAT16_EXP : ℕ := 10

/-- Source constant `VFPU_MASK_FLOAT16_EXP`. -/
def VFPU_MASK_FLOAT16_EXP : ℕ := 0x1f

/-- Source constant `VFPU_SH_FLOAT16_FRAC`. -/
def VFPU_SH_FLOAT16_FRAC : ℕ := 0

/-- Source constant `VFPU_MASK_FLOAT16_FRAC`. -/
def VFPU_MASK_FLOAT16_FRAC : ℕ := 0x3ff

/-! ## Sizes and overlap classification -/

/-- Source enum `VectorSize`. -/
inductive VectorSize where
  | V_Single : VectorSize
  | V_Pair : VectorSize
  | V_Triple : VectorSize
  | V_Quad : VectorSize
  | V_Invalid : VectorSize
deriving DecidableEq

/-- Source enum `MatrixSize`. -/
inductive MatrixSize where
  | M_2x2 : MatrixSize
  | M_3x3 : MatrixSize
  | M_4x4 : MatrixSize
  | M_Invalid : MatrixSize
deriving DecidableEq

/-- Source enum `MatrixOverlapType`. -/
inductive MatrixOverlapType where
  | OVERLAP_NONE : MatrixOverlapType
  | OVERLAP_PARTIAL : MatrixOverlapType
  | OVERLAP_EQUAL : MatrixOverlapType
deriving DecidableEq

open VectorSize MatrixSize MatrixOverlapType

/-- The numeric value of a `VectorSize` enumerator. -/
def VectorSize.toInt : VectorSize → ℤ
  | V_Single => 1
  | V_Pair => 2
  | V_Triple => 3
  | V_Quad => 4
  | V_Invalid => -1

/-- The numeric value of a `MatrixSize` enumerator. -/
def MatrixSize.toInt : MatrixSize → ℤ
  | M_2x2 => 2
  | M_3x3 => 3
  | M_4x4 => 4
  | M_Invalid => -1

/-- Modelled from the spec: the body of `GetVectorSize`, which the header only declares.
Every matrix size has exactly one corresponding vector size, its side length; invalid in,
invalid out. -/
def GetVectorSize (sz : MatrixSize) : VectorSize :=
  match sz with
  | M_2x2 => V_Pair
  | M_3x3 => V_Triple
  | M_4x4 => V_Quad
  | M_Invalid => V_Invalid

/-- Modelled from the spec: the body of `GetMatrixSize`, which the header only declares.
A vector size of 2, 3 or 4 has exactly one corresponding matrix size; vector size 1 has no
matrix counterpart (invalid); invalid in, invalid out. -/
def GetMatrixSize (sz : VectorSize) : MatrixSize :=
  match sz with
  | V_Single => M_Invalid
  | V_Pair => M_2x2
  | V_Triple => M_3x3
  | V_Quad => M_4x4
  | V_Invalid => M_Invalid

/-- Modelled from the spec: the body of `GetNumVectorElements`, which the header only
declares. A vector size is one of 1, 2, 3, 4 lanes; the invalid sentinel has no lanes. -/
def GetNumVectorElements (sz : VectorSize) : ℕ :=
  match sz with
  | V_Single => 1
  | V_Pair => 2
  | V_Triple => 3
  | V_Quad => 4
  | V_Invalid => 0

/-- Modelled from the spec: the comparison of two decoded lane lists as sets, shared by the
vector and the matrix overlap analyzers. Empty intersection is disjoint; an intersection equal
to both full lists is identical; anything else is partial. -/
def overlapOfLanes (regs1 regs2 : List ℕ) : MatrixOverlapType :=
  if regs1.all (fun r => !regs2.contains r) then
    OVERLAP_NONE
  else if regs1.all (fun r => regs2.contains r) && regs2.all (fun r => regs1.contains r) then
    OVERLAP_EQUAL
  else
    OVERLAP_PARTIAL

/-- Modelled from the spec: the body of `GetVectorOverlap`, which the header only declares:
decode both accesses to lane lists and compare them as sets. The lane decoder `GetVectorRegs`
is also only declared, and is a parameter here: it returns the lanes it writes to `regs`. The
header declares the result as `int`; the spec names the three classifications. -/
def GetVectorOverlap (GetVectorRegs : VectorSize → ℤ → List ℕ) (reg1 : ℤ) (size1 : VectorSize)
    (reg2 : ℤ) (size2 : VectorSize) : MatrixOverlapType :=
  overlapOfLanes (GetVectorRegs size1 reg1) (GetVectorRegs size2 reg2)

/-- Modelled from the spec: the body of `GetMatrixOverlap`, which the header only declares:
the same contract at matrix granularity, reporting storage overlap only. The lane decoder
`GetMatrixRegs` is also only declared, and is a parameter here. -/
def GetMatrixOverlap (GetMatrixRegs : MatrixSize → ℤ → List ℕ) (m1 m2 : ℤ)
    (msize : MatrixSize) : MatrixOverlapType :=
  overlapOfLanes (GetMatrixRegs msize m1) (GetMatrixRegs msize m2)

/-- Modelled from the spec: the body of `Float16ToFloat32`, which the header only declares.
Sign, exponent and fraction are read with the layout constants. Exponent `0x1F` is reserved:
infinity of the input sign when the fraction is zero, NaN otherwise. Exponent 0 is a denormal
or a zero, which keeps the input sign. Every other exponent is a normalized value
`(1 + fraction / 2^10) * 2^(exponent - bias)`. The spec leaves the bias of the unit open, so
it is a parameter; its example `0x3C00 -> 1.0f` is the case `bias = 15`. Denormals are scaled
by `2^(1 - bias)`. -/
def Float16ToFloat32 (bias : ℤ) (l : ℕ) : F32 :=
  let sign := (l >>> VFPU_SH_FLOAT16_SIGN) &&& VFPU_MASK_FLOAT16_SIGN
  let exponent := (l >>> VFPU_SH_FLOAT16_EXP) &&& VFPU_MASK_FLOAT16_EXP
  let fraction := (l >>> VFPU_SH_FLOAT16_FRAC) &&& VFPU_MASK_FLOAT16_FRAC
  if exponent = VFPU_FLOAT16_EXP_MAX then
    if fraction = 0 then infOf (decide (sign = 1)) else nan
  else if exponent = 0 then
    ofSign (decide (sign = 1)) ((-1) ^ sign * ((fraction : ℚ) / 2 ^ 10) * 2 ^ (1 - bias))
  else
    num ((-1) ^ sign * (1 + (fraction : ℚ) / 2 ^ 10) * 2 ^ ((exponent : ℤ) - bias))

/-! ## Binary32 rounding

The definitions above compute finite results exactly. The source computes in `float`, where
every arithmetic result is rounded to binary32 (round to nearest, ties to even). The
definitions below add that rounding, for the inputs on which it changes the result. -/

/-- Rounding of a non-negative rational to the nearest natural number, ties to even. -/
def roundHalfEven (x : ℚ) : ℕ :=
  if x - (⌊x⌋₊ : ℚ) < 1 / 2 then ⌊x⌋₊
  else if 1 / 2 < x - (⌊x⌋₊ : ℚ) then ⌊x⌋₊ + 1
  else if ⌊x⌋₊ % 2 = 0 then ⌊x⌋₊
  else ⌊x⌋₊ + 1

/-- Rounding of an exact result to binary32, round to nearest, ties to even. Finite binary32
values are the multiples `n * 2^s / 2^149` with `n < 2^24`; `t` is the magnitude in units of
`2^-149` (the smallest subnormal), `2^s` the spacing of binary32 values at that magnitude
(`s = 0` in the subnormal range). A result that rounds to zero keeps its sign; a result of
magnitude `2^128` or more after rounding is an infinity. -/
def F32.round32 : F32 → F32
  | num q =>
    let t := |q| * 2 ^ 149
    let s := Nat.log 2 ⌊t⌋₊ - 23
    let n := roundHalfEven (t / 2 ^ s) * 2 ^ s
    if n = 0 then (if q < 0 then negZero else num 0)
    else if 2 ^ 277 ≤ n then infOf (decide (q < 0))
    else num ((if q < 0 then -1 else 1) * (n : ℚ) / 2 ^ 149)
  | x => x

/-- Float multiplication with the binary32 rounding of the result. -/
def F32.mul32 (x y : F32) : F32 := round32 (mul x y)

/-- Float subtraction with the binary32 rounding of the result. -/
def F32.sub32 (x y : F32) : F32 := round32 (sub x y)

/-- Source function `vfpu_sin(angle)` with every arithmetic result rounded to binary32. -/
def vfpu_sin_binary32 (sinf : F32 → F32) (angle : F32) : F32 :=
  let angle := sub32 angle (mul32 (floorf (mul32 angle (num (1 / 4)))) (num 4))
  if feq angle (num 0) || feq angle (num 2) then
    num 0
  else if feq angle (num 1) then
    num 1
  else if feq angle (num 3) then
    num (-1)
  else
    let angle := mul32 angle M_PI_2
    sinf angle

/-- Source function `vfpu_cos(angle)` with every arithmetic result rounded to binary32. -/
def vfpu_cos_binary32 (cosf : F32 → F32) (angle : F32) : F32 :=
  let angle := sub32 angle (mul32 (floorf (mul32 angle (num (1 / 4)))) (num 4))
  if feq angle (num 1) || feq angle (num 3) then
    num 0
  else if feq angle (num 0) then
    num 1
  else if feq angle (num 2) then
    num (-1)
  else
    let angle := mul32 angle M_PI_2
    cosf angle

/-- Source function `vfpu_sincos(angle, sine, cosine)` with every arithmetic result rounded to
binary32. -/
def vfpu_sincos_binary32 (linux : Bool) (sincosf : F32 → F32 × F32) (sinf cosf : F32 → F32)
    (angle : F32) : F32 × F32 :=
  let angle := sub32 angle (mul32 (floorf (mul32 angle (num (1 / 4)))) (num 4))
  if feq angle (num 0) then
    (num 0, num 1)
  else if feq angle (num 1) then
    (num 1, num 0)
  else if feq angle (num 2) then
    (num 0, num (-1))
  else if feq angle (num 3) then
    (num (-1), num 0)
  else
    let angle := mul32 angle M_PI_2
    if linux then sincosf angle else (sinf angle, cosf angle)

/-! ## Range reduction on integer angles -/

theorem reduce_int (n : ℤ) :
    sub (num n) (mul (floorf (mul (num n) (num (1 / 4)))) (num 4)) = num ((n % 4 : ℤ) : ℚ) := by
  have h1 : mul (num n) (num (1 / 4)) = num ((n : ℚ) / 4) := by
    by_cases h : (n : ℚ) = 0
    · simp [mul, ofSign, h]
    · simp [mul, ofSign, h, div_eq_mul_inv]
  have h2 : (⌊(n : ℚ) / 4⌋ : ℤ) = n / 4 := by
    have := Rat.floor_intCast_div_natCast n 4
    simpa using this
  have h3 : mul (num ((n / 4 : ℤ) : ℚ)) (num 4) = num (((n / 4 * 4 : ℤ)) : ℚ) := by
    by_cases h : ((n / 4 : ℤ) : ℚ) = 0
    · simp [mul, ofSign, h]
    · simp [mul, ofSign, h]
  rw [h1, floorf, h2, h3, sub]
  congr 1
  have : n % 4 = n - n / 4 * 4 := by omega
  rw [this]
  push_cast
  ring

theorem feq_num_num (a b : ℚ) : feq (num a) (num b) = decide (a = b) := rfl

/-! ## Exact quarter-turn values -/

/-- C1: on every integer-valued angle `n`, whatever the library routines `sinf` and `cosf`
are, `vfpu_sin` returns exactly `0, 1, 0, -1` and `vfpu_cos` returns exactly `1, 0, -1, 0`
according to `n mod 4 = 0, 1, 2, 3`; in particular at the angles `0, 1, 2, 3` themselves. -/
theorem vfpu_sin_cos_integer_angle (sinf cosf : F32 → F32) (n : ℤ) :
    vfpu_sin sinf (num n)
        = num (if n % 4 = 0 then 0 else if n % 4 = 1 then 1 else if n % 4 = 2 then 0 else -1)
      ∧ vfpu_cos cosf (num n)
        = num (if n % 4 = 0 then 1 else if n % 4 = 1 then 0 else if n % 4 = 2 then -1 else 0)
      ∧ (vfpu_sin sinf (num 0) = num 0 ∧ vfpu_sin sinf (num 1) = num 1
          ∧ vfpu_sin sinf (num 2) = num 0 ∧ vfpu_sin sinf (num 3) = num (-1))
      ∧ (vfpu_cos cosf (num 0) = num 1 ∧ vfpu_cos cosf (num 1) = num 0
          ∧ vfpu_cos cosf (num 2) = num (-1) ∧ vfpu_cos cosf (num 3) = num 0) := by
  have key : ∀ m : ℤ,
      vfpu_sin sinf (num m)
        = num (if m % 4 = 0 then 0 else if m % 4 = 1 then 1 else if m % 4 = 2 then 0 else -1)
      ∧ vfpu_cos cosf (num m)
        = num (if m % 4 = 0 then 1 else if m % 4 = 1 then 0 else if m % 4 = 2 then -1 else 0) := by
    intro m
    have hr := reduce_int m
    have hm : m % 4 = 0 ∨ m % 4 = 1 ∨ m % 4 = 2 ∨ m % 4 = 3 := by omega
    unfold vfpu_sin vfpu_cos
    simp only [hr]
    rcases hm with h | h | h | h <;> rw [h] <;> simp [feq_num_num]
  refine ⟨(key n).1, (key n).2, ⟨?_, ?_, ?_, ?_⟩, ⟨?_, ?_, ?_, ?_⟩⟩
  · simpa using (key 0).1
  · simpa using (key 1).1
  · simpa using (key 2).1
  · simpa using (key 3).1
  · simpa using (key 0).2
  · simpa using (key 1).2
  · simpa using (key 2).2
  · simpa using (key 3).2

/-! ## The combined sine/cosine agrees with the separate routines -/

/-- C2: for every input angle (NaN, infinities, both zeros and negative angles included), on
either side of the `__linux__` switch, when the combined routine `sincosf` returns the pair
`(sinf, cosf)` of its argument, the sine written by `vfpu_sincos` is `vfpu_sin` of the angle
and the cosine written is `vfpu_cos` of the angle. -/
theorem vfpu_sincos_eq_sin_cos (linux : Bool) (sincosf : F32 → F32 × F32)
    (sinf cosf : F32 → F32) (hsc : ∀ x, sincosf x = (sinf x, cosf x)) (angle : F32) :
    (vfpu_sincos linux sincosf sinf cosf angle).1 = vfpu_sin sinf angle
      ∧ (vfpu_sincos linux sincosf sinf cosf angle).2 = vfpu_cos cosf angle := by
  unfold vfpu_sincos vfpu_sin vfpu_cos
  generalize sub angle (mul (floorf (mul angle (num (1 / 4)))) (num 4)) = r
  cases r with
  | nan => cases linux <;> simp [feq, hsc]
  | pinf => cases linux <;> simp [feq, hsc]
  | ninf => cases linux <;> simp [feq, hsc]
  | negZero => simp [feq]
  | num q =>
    simp only [feq_num_num]
    by_cases h0 : q = 0
    · subst h0; simp
    by_cases h1 : q = 1
    · subst h1; simp
    by_cases h2 : q = 2
    · subst h2; simp
    by_cases h3 : q = 3
    · subst h3; simp
    cases linux <;> simp [h0, h1, h2, h3, hsc]

/-- Witness for C2 at the angle `-7/2` with identity library routines. -/
theorem vfpu_sincos_eq_sin_cos_witness :
    (vfpu_sincos true (fun x => (x, x)) id id (num (-7 / 2))).1 = vfpu_sin id (num (-7 / 2))
      ∧ (vfpu_sincos true (fun x => (x, x)) id id (num (-7 / 2))).2
          = vfpu_cos id (num (-7 / 2)) :=
  vfpu_sincos_eq_sin_cos true (fun x => (x, x)) id id (fun _ => rfl) (num (-7 / 2))

/-! ## Clamp -/

theorem fle_trans (x y z : F32) (hxy : fle x y = true) (hyz : fle y z = true) :
    fle x z = true := by
  cases x <;> cases y <;> cases z <;> simp_all [fle] <;> linarith

/-- C3: `vfpu_clamp(v, min, max)` is `max` when `v >= max`; otherwise `min` when `v <= min`;
otherwise `v` itself. The `max` test comes first: when both `v >= max` and `v <= min` hold
the result is `max`, and that can only happen when `min >= max`. -/
theorem vfpu_clamp_cases (v min max : F32) :
    (fge v max = true → vfpu_clamp v min max = max)
      ∧ (fge v max = false → fle v min = true → vfpu_clamp v min max = min)
      ∧ (fge v max = false → fle v min = false → vfpu_clamp v min max = v)
      ∧ (fge v max = true → fle v min = true →
          vfpu_clamp v min max = max ∧ fge min max = true) := by
  refine ⟨?_, ?_, ?_, ?_⟩
  · intro h
    simp [vfpu_clamp, h]
  · intro h1 h2
    simp [vfpu_clamp, h1, h2]
  · intro h1 h2
    simp [vfpu_clamp, h1, h2]
  · intro h1 h2
    refine ⟨by simp [vfpu_clamp, h1], ?_⟩
    exact fle_trans max v min h1 h2

/-- Witness for C3: the four cases at `(5, 0, 1)`, `(-5, 0, 1)`, `(1/2, 0, 1)`, `(1, 2, 0)`. -/
theorem vfpu_clamp_cases_witness :
    vfpu_clamp (num 5) (num 0) (num 1) = num 1
      ∧ vfpu_clamp (num (-5)) (num 0) (num 1) = num 0
      ∧ vfpu_clamp (num (1 / 2)) (num 0) (num 1) = num (1 / 2)
      ∧ (vfpu_clamp (num 1) (num 2) (num 0) = num 0 ∧ fge (num 2) (num 0) = true) :=
  ⟨(vfpu_clamp_cases (num 5) (num 0) (num 1)).1 (by simp [fge, fle]),
   (vfpu_clamp_cases (num (-5)) (num 0) (num 1)).2.1 (by norm_num [fge, fle])
     (by norm_num [fle]),
   (vfpu_clamp_cases (num (1 / 2)) (num 0) (num 1)).2.2.1 (by norm_num [fge, fle])
     (by norm_num [fle]),
   (vfpu_clamp_cases (num 1) (num 2) (num 0)).2.2.2 (by simp [fge, fle]) (by simp [fle])⟩

/-- C4: in this float model every ordered comparison with NaN is false and `-0.0 == +0.0`;
`vfpu_clamp(NaN, min, max)` is the NaN input for all `min` and `max` (so for `0` and `1`),
and for every `max > 0`, `vfpu_clamp(-0.0, +0.0, max)` is `+0.0`, the positive zero (so for
`max = 1.0`). -/
theorem vfpu_clamp_nan_negZero (min max : F32) :
    (∀ x, fle nan x = false ∧ fle x nan = false ∧ fge nan x = false ∧ fge x nan = false)
      ∧ feq negZero (num 0) = true
      ∧ vfpu_clamp nan min max = nan
      ∧ vfpu_clamp nan (num 0) (num 1) = nan
      ∧ (fgt max (num 0) = true → vfpu_clamp negZero (num 0) max = num 0)
      ∧ vfpu_clamp negZero (num 0) (num 1) = num 0
      ∧ signBit (vfpu_clamp negZero (num 0) (num 1)) = false := by
  refine ⟨?_, ?_, ?_, ?_, ?_, ?_, ?_⟩
  · intro x
    cases x <;> simp [fle, fge]
  · simp [feq]
  · cases max <;> cases min <;> simp [vfpu_clamp, fge, fle]
  · simp [vfpu_clamp, fge, fle]
  · intro h
    cases max <;> simp_all [vfpu_clamp, fge, fle, fgt, feq]
    exact lt_of_le_of_ne h.1 (Ne.symm h.2)
  · simp [vfpu_clamp, fge, fle]
  · norm_num [vfpu_clamp, fge, fle, signBit]

/-- Witness for C4 at `max = 3`. -/
theorem vfpu_clamp_nan_negZero_witness :
    fgt (num 3) (num 0) = true ∧ vfpu_clamp negZero (num 0) (num 3) = num 0 :=
  ⟨by simp [fgt, fle, feq],
   (vfpu_clamp_nan_negZero (num 0) (num 3)).2.2.2.2.1 (by simp [fgt, fle, feq])⟩

/-! ## Bit-level lemmas on `Int` -/

theorem int_eq_of_testBit_eq (a b : ℤ) (h : ∀ i, Int.testBit a i = Int.testBit b i) :
    a = b := by
  have big : ∀ m n : ℕ, ∃ i, Nat.testBit m i = false ∧ Nat.testBit n i = false := by
    intro m n
    refine ⟨m + n, Nat.testBit_lt_two_pow ?_, Nat.testBit_lt_two_pow ?_⟩
    · exact lt_of_lt_of_le (Nat.lt_two_pow m)
        (Nat.pow_le_pow_right (by norm_num) (Nat.le_add_right m n))
    · exact lt_of_lt_of_le (Nat.lt_two_pow n)
        (Nat.pow_le_pow_right (by norm_num) (Nat.le_add_left n m))
  cases a with
  | ofNat m =>
    cases b with
    | ofNat n =>
      congr 1
      exact Nat.eq_of_testBit_eq h
    | negSucc n =>
      exfalso
      obtain ⟨i, h1, h2⟩ := big m n
      have := h i
      simp [Int.testBit, h1, h2] at this
  | negSucc m =>
    cases b with
    | ofNat n =>
      exfalso
      obtain ⟨i, h1, h2⟩ := big m n
      have := h i
      simp [Int.testBit, h1, h2] at this
    | negSucc n =>
      congr 1
      refine Nat.eq_of_testBit_eq fun i => ?_
      have := h i
      simpa [Int.testBit] using this

theorem testBit_shiftRight_int (c : ℤ) (k i : ℕ) :
    Int.testBit (Int.shiftRight c k) i = Int.testBit c (k + i) := by
  cases c <;> simp [Int.shiftRight, Int.testBit]

theorem testBit_xor_0x20 (c : ℤ) (i : ℕ) :
    Int.testBit (Int.xor c 0x20) i = xor (Int.testBit c i) (decide (i = 5)) := by
  rw [Int.testBit_lxor]
  congr 1
  show Nat.testBit (2 ^ 5) i = decide (i = 5)
  rw [Nat.testBit_two_pow]
  by_cases h : i = 5 <;> simp [h, eq_comm]

theorem testBit_land_7 (c : ℤ) (i : ℕ) :
    Int.testBit (Int.land c 7) i = (Int.testBit c i && decide (i < 3)) := by
  rw [Int.testBit_land]
  congr 1
  show Nat.testBit (2 ^ 3 - 1) i = decide (i < 3)
  rw [Nat.testBit_two_pow_sub_one]

theorem land_one_eq (c : ℤ) : Int.land c 1 = if Int.testBit c 0 then 1 else 0 := by
  apply int_eq_of_testBit_eq
  intro i
  rw [Int.testBit_land]
  have h1 : Int.testBit 1 i = decide (i = 0) := by
    show Nat.testBit (2 ^ 0) i = decide (i = 0)
    rw [Nat.testBit_two_pow]
    by_cases h : i = 0 <;> simp [h, eq_comm]
  have h0 : Int.testBit 0 i = false := by
    show Nat.testBit 0 i = false
    simp
  rw [h1]
  by_cases hi : i = 0
  · subst hi
    cases hc : Int.testBit c 0 <;> simp [h1, h0]
  · cases hc : Int.testBit c 0 <;> simp [hi, h1, h0]

theorem IsMatrixTransposed_eq_testBit (c : ℤ) : IsMatrixTransposed c = Int.testBit c 5 := by
  unfold IsMatrixTransposed
  rw [land_one_eq, testBit_shiftRight_int]
  cases Int.testBit c 5 <;> simp

theorem IsVectorColumn_eq_testBit (c : ℤ) : IsVectorColumn c = !Int.testBit c 5 := by
  unfold IsVectorColumn
  rw [land_one_eq, testBit_shiftRight_int]
  cases Int.testBit c 5 <;> simp

theorem land_7_range (x : ℤ) : 0 ≤ Int.land x 7 ∧ Int.land x 7 ≤ 7 := by
  cases x with
  | ofNat n =>
    show (0 : ℤ) ≤ ((n &&& 7 : ℕ) : ℤ) ∧ ((n &&& 7 : ℕ) : ℤ) ≤ 7
    have : n &&& 7 ≤ 7 := Nat.and_le_right
    omega
  | negSucc n =>
    show (0 : ℤ) ≤ ((Nat.ldiff 7 n : ℕ) : ℤ) ∧ ((Nat.ldiff 7 n : ℕ) : ℤ) ≤ 7
    have : Nat.ldiff 7 n < 2 ^ 3 := by
      apply Nat.lt_pow_two_of_testBit
      intro i hi
      rw [Nat.testBit_ldiff]
      have h7 : Nat.testBit (2 ^ 3 - 1) i = false := by
        rw [Nat.testBit_two_pow_sub_one]
        simp
        omega
      have h7 : Nat.testBit 7 i = false := h7
      rw [h7]
      rfl
    omega

/-! ## Orientation toggle and bank index -/

/-- C5: for every register code `c` (every `int`, so every 7-bit code),
`TransposeMatrixReg(TransposeMatrixReg(c)) = c` and `Xpose(Xpose(c)) = c`. -/
theorem toggle_orientation_involutive (c : ℤ) :
    TransposeMatrixReg (TransposeMatrixReg c) = c ∧ Xpose (Xpose c) = c := by
  have h : Int.xor (Int.xor c 0x20) 0x20 = c := by
    apply int_eq_of_testBit_eq
    intro i
    rw [testBit_xor_0x20, testBit_xor_0x20]
    cases Int.testBit c i <;> cases decide (i = 5) <;> rfl
  exact ⟨h, h⟩

/-- C6: for every register code `c`, `GetMtx(c)` lies in `0..7`, and
`GetMtx(TransposeMatrixReg(c)) = GetMtx(c)`. -/
theorem GetMtx_range_and_toggle (c : ℤ) :
    0 ≤ GetMtx c ∧ GetMtx c ≤ 7 ∧ GetMtx (TransposeMatrixReg c) = GetMtx c := by
  refine ⟨(land_7_range _).1, (land_7_range _).2, ?_⟩
  unfold GetMtx TransposeMatrixReg
  apply int_eq_of_testBit_eq
  intro i
  rw [testBit_land_7, testBit_land_7, testBit_shiftRight_int, testBit_shiftRight_int,
    testBit_xor_0x20]
  by_cases hi : i < 3
  · have : ¬ (2 + i = 5) := by omega
    simp [this]
  · simp [hi]

/-- C7: for every register code `c`, `IsVectorColumn(c)` is the negation of
`IsMatrixTransposed(c)`; `IsMatrixTransposed(c)` is bit 5 of `c` and `IsVectorColumn(c)` is
its complement. -/
theorem IsVectorColumn_eq_not_IsMatrixTransposed (c : ℤ) :
    IsVectorColumn c = !IsMatrixTransposed c
      ∧ IsMatrixTransposed c = Int.testBit c 5
      ∧ IsVectorColumn c = !Int.testBit c 5 := by
  refine ⟨?_, IsMatrixTransposed_eq_testBit c, IsVectorColumn_eq_testBit c⟩
  rw [IsMatrixTransposed_eq_testBit, IsVectorColumn_eq_testBit]

/-- C8: for every register code `c`, `c ^ TransposeMatrixReg(c) = 0x20`: the toggle inverts
`IsMatrixTransposed` and `IsVectorColumn`, leaves every bit other than bit 5 unchanged, and
maps a 7-bit code (`0..127`) to a 7-bit code. -/
theorem TransposeMatrixReg_flips_only_bit5 (c : ℤ) :
    Int.xor c (TransposeMatrixReg c) = 0x20
      ∧ IsMatrixTransposed (TransposeMatrixReg c) = !IsMatrixTransposed c
      ∧ IsVectorColumn (TransposeMatrixReg c) = !IsVectorColumn c
      ∧ (∀ i : ℕ, i ≠ 5 → Int.testBit (TransposeMatrixReg c) i = Int.testBit c i)
      ∧ (0 ≤ c ∧ c < 128 → 0 ≤ TransposeMatrixReg c ∧ TransposeMatrixReg c < 128) := by
  refine ⟨?_, ?_, ?_, ?_, ?_⟩
  · unfold TransposeMatrixReg
    apply int_eq_of_testBit_eq
    intro i
    rw [Int.testBit_lxor, testBit_xor_0x20]
    have h32 : Int.testBit 0x20 i = decide (i = 5) := by
      show Nat.testBit (2 ^ 5) i = decide (i = 5)
      rw [Nat.testBit_two_pow]
      by_cases h : i = 5 <;> simp [h, eq_comm]
    rw [h32]
    cases Int.testBit c i <;> cases decide (i = 5) <;> rfl
  · rw [IsMatrixTransposed_eq_testBit, IsMatrixTransposed_eq_testBit]
    unfold TransposeMatrixReg
    rw [testBit_xor_0x20]
    simp
  · rw [IsVectorColumn_eq_testBit, IsVectorColumn_eq_testBit]
    unfold TransposeMatrixReg
    rw [testBit_xor_0x20]
    simp
  · intro i hi
    unfold TransposeMatrixReg
    rw [testBit_xor_0x20]
    simp [hi]
  · rintro ⟨h0, h1⟩
    obtain ⟨m, rfl⟩ := Int.eq_ofNat_of_zero_le h0
    show (0 : ℤ) ≤ ((m ^^^ 32 : ℕ) : ℤ) ∧ ((m ^^^ 32 : ℕ) : ℤ) < 128
    have hm : m < 2 ^ 7 := by omega
    have : m ^^^ 32 < 2 ^ 7 := Nat.xor_lt_two_pow hm (by norm_num)
    omega

/-- Witness for C8 at the code `0x45`: bit 0 is kept and the result is a 7-bit code. -/
theorem TransposeMatrixReg_flips_only_bit5_witness :
    Int.testBit (TransposeMatrixReg 0x45) 0 = Int.testBit 0x45 0
      ∧ (0 ≤ TransposeMatrixReg 0x45 ∧ TransposeMatrixReg 0x45 < 128) :=
  ⟨(TransposeMatrixReg_flips_only_bit5 0x45).2.2.2.1 0 (by decide),
   (TransposeMatrixReg_flips_only_bit5 0x45).2.2.2.2 ⟨by decide, by decide⟩⟩

/-! ## Operand-modifier packing -/

/-- C9: for all flags `x, y, z, w` in `{0, 1}`, `VFPU_MASK(x, y, z, w)` is below 16 and its
bits 0, 1, 2, 3 are `x, y, z, w` respectively. -/
theorem VFPU_MASK_decode (x y z w : ℤ) (hx : x = 0 ∨ x = 1) (hy : y = 0 ∨ y = 1)
    (hz : z = 0 ∨ z = 1) (hw : w = 0 ∨ w = 1) :
    VFPU_MASK x y z w < 16
      ∧ (((VFPU_MASK x y z w >>> 0) &&& 1 : ℕ) : ℤ) = x
      ∧ (((VFPU_MASK x y z w >>> 1) &&& 1 : ℕ) : ℤ) = y
      ∧ (((VFPU_MASK x y z w >>> 2) &&& 1 : ℕ) : ℤ) = z
      ∧ (((VFPU_MASK x y z w >>> 3) &&& 1 : ℕ) : ℤ) = w := by
  rcases hx with rfl | rfl <;> rcases hy with rfl | rfl <;> rcases hz with rfl | rfl <;>
    rcases hw with rfl | rfl <;> decide

/-- Witness for C9: `VFPU_MASK(1, 0, 1, 0)` decodes back to `1, 0, 1, 0`. -/
theorem VFPU_MASK_decode_witness :
    VFPU_MASK 1 0 1 0 < 16
      ∧ (((VFPU_MASK 1 0 1 0 >>> 0) &&& 1 : ℕ) : ℤ) = 1
      ∧ (((VFPU_MASK 1 0 1 0 >>> 1) &&& 1 : ℕ) : ℤ) = 0
      ∧ (((VFPU_MASK 1 0 1 0 >>> 2) &&& 1 : ℕ) : ℤ) = 1
      ∧ (((VFPU_MASK 1 0 1 0 >>> 3) &&& 1 : ℕ) : ℤ) = 0 :=
  VFPU_MASK_decode 1 0 1 0 (Or.inr rfl) (Or.inl rfl) (Or.inr rfl) (Or.inl rfl)

theorem selector_cases (x : ℤ) (hx : 0 ≤ x ∧ x ≤ 3) : x = 0 ∨ x = 1 ∨ x = 2 ∨ x = 3 := by
  omega

/-- C10: for all selectors `x, y, z, w` in `0..3`, `VFPU_SWIZZLE(x, y, z, w)` is at most
`VFPU_ANY_SWIZZLE() = 0xFF = VFPU_SWIZZLE(3, 3, 3, 3)`, and its 2-bit fields at bit offsets
0, 2, 4, 6 are `x, y, z, w` respectively. -/
theorem VFPU_SWIZZLE_decode (x y z w : ℤ) (hx : 0 ≤ x ∧ x ≤ 3) (hy : 0 ≤ y ∧ y ≤ 3)
    (hz : 0 ≤ z ∧ z ≤ 3) (hw : 0 ≤ w ∧ w ≤ 3) :
    VFPU_SWIZZLE x y z w ≤ VFPU_ANY_SWIZZLE
      ∧ VFPU_ANY_SWIZZLE = 0xFF
      ∧ VFPU_SWIZZLE 3 3 3 3 = VFPU_ANY_SWIZZLE
      ∧ (((VFPU_SWIZZLE x y z w >>> 0) &&& 3 : ℕ) : ℤ) = x
      ∧ (((VFPU_SWIZZLE x y z w >>> 2) &&& 3 : ℕ) : ℤ) = y
      ∧ (((VFPU_SWIZZLE x y z w >>> 4) &&& 3 : ℕ) : ℤ) = z
      ∧ (((VFPU_SWIZZLE x y z w >>> 6) &&& 3 : ℕ) : ℤ) = w := by
  rcases selector_cases x hx with rfl | rfl | rfl | rfl <;>
    rcases selector_cases y hy with rfl | rfl | rfl | rfl <;>
    rcases selector_cases z hz with rfl | rfl | rfl | rfl <;>
    rcases selector_cases w hw with rfl | rfl | rfl | rfl <;> decide

/-- Witness for C10 at the selectors `2, 0, 3, 1`. -/
theorem VFPU_SWIZZLE_decode_witness :
    VFPU_SWIZZLE 2 0 3 1 ≤ VFPU_ANY_SWIZZLE
      ∧ (((VFPU_SWIZZLE 2 0 3 1 >>> 0) &&& 3 : ℕ) : ℤ) = 2
      ∧ (((VFPU_SWIZZLE 2 0 3 1 >>> 2) &&& 3 : ℕ) : ℤ) = 0
      ∧ (((VFPU_SWIZZLE 2 0 3 1 >>> 4) &&& 3 : ℕ) : ℤ) = 3
      ∧ (((VFPU_SWIZZLE 2 0 3 1 >>> 6) &&& 3 : ℕ) : ℤ) = 1 :=
  have h := VFPU_SWIZZLE_decode 2 0 3 1 (by decide) (by decide) (by decide) (by decide)
  ⟨h.1, h.2.2.2.1, h.2.2.2.2.1, h.2.2.2.2.2.1, h.2.2.2.2.2.2⟩

/-! ## Sub-fields of the operand-modifier word -/

theorem VFPU_MASK_lt (x y z w : ℤ) (hx : x = 0 ∨ x = 1) (hy : y = 0 ∨ y = 1)
    (hz : z = 0 ∨ z = 1) (hw : w = 0 ∨ w = 1) : VFPU_MASK x y z w < 16 := by
  rcases hx with rfl | rfl <;> rcases hy with rfl | rfl <;> rcases hz with rfl | rfl <;>
    rcases hw with rfl | rfl <;> decide

theorem VFPU_SWIZZLE_lt (x y z w : ℤ) (hx : 0 ≤ x ∧ x ≤ 3) (hy : 0 ≤ y ∧ y ≤ 3)
    (hz : 0 ≤ z ∧ z ≤ 3) (hw : 0 ≤ w ∧ w ≤ 3) : VFPU_SWIZZLE x y z w < 256 := by
  rcases selector_cases x hx with rfl | rfl | rfl | rfl <;>
    rcases selector_cases y hy with rfl | rfl | rfl | rfl <;>
    rcases selector_cases z hz with rfl | rfl | rfl | rfl <;>
    rcases selector_cases w hw with rfl | rfl | rfl | rfl <;> decide

theorem testBit_shiftLeft_range (a k j i : ℕ) (ha : a < 2 ^ j)
    (h : Nat.testBit (a <<< k) i = true) : k ≤ i ∧ i < k + j := by
  rw [Nat.testBit_shiftLeft] at h
  simp only [Bool.and_eq_true, decide_eq_true_eq] at h
  refine ⟨h.1, ?_⟩
  by_contra hlt
  have hle : j ≤ i - k := by omega
  have : a < 2 ^ (i - k) := lt_of_lt_of_le ha (Nat.pow_le_pow_right (by norm_num) hle)
  rw [Nat.testBit_lt_two_pow this] at h
  exact absurd h.2 (by simp)

theorem testBit_lt_of_lt (a j i : ℕ) (ha : a < 2 ^ j) (h : Nat.testBit a i = true) : i < j := by
  have := testBit_shiftLeft_range a 0 j i ha (by simpa using h)
  omega

theorem and_eq_zero_of_separated (x y m : ℕ) (hx : ∀ i, Nat.testBit x i = true → i < m)
    (hy : ∀ i, Nat.testBit y i = true → m ≤ i) : x &&& y = 0 := by
  apply Nat.eq_of_testBit_eq
  intro i
  rw [Nat.testBit_and, Nat.zero_testBit]
  cases hxi : Nat.testBit x i
  · simp
  · cases hyi : Nat.testBit y i
    · simp
    · have h1 := hx i hxi
      have h2 := hy i hyi
      omega

theorem or_shiftLeft_eq_add (b a k : ℕ) (h : b < 2 ^ k) : b ||| a <<< k = 2 ^ k * a + b := by
  rw [Nat.or_comm, Nat.shiftLeft_eq, Nat.mul_comm a]
  exact (Nat.mul_add_lt_is_or h a).symm

theorem modifier_word_fields (s a c n : ℕ) (hs : s < 256) (ha : a < 16) (hc : c < 16)
    (hn : n < 16) :
    (s ||| a <<< 8 ||| c <<< 12 ||| n <<< 16) &&& 0xFF = s
      ∧ ((s ||| a <<< 8 ||| c <<< 12 ||| n <<< 16) >>> 8) &&& 0xF = a
      ∧ ((s ||| a <<< 8 ||| c <<< 12 ||| n <<< 16) >>> 12) &&& 0xF = c
      ∧ ((s ||| a <<< 8 ||| c <<< 12 ||| n <<< 16) >>> 16) &&& 0xF = n := by
  have e1 : s ||| a <<< 8 = 2 ^ 8 * a + s := or_shiftLeft_eq_add s a 8 (by omega)
  have e2 : (2 ^ 8 * a + s) ||| c <<< 12 = 2 ^ 12 * c + (2 ^ 8 * a + s) :=
    or_shiftLeft_eq_add _ c 12 (by omega)
  have e3 : (2 ^ 12 * c + (2 ^ 8 * a + s)) ||| n <<< 16
      = 2 ^ 16 * n + (2 ^ 12 * c + (2 ^ 8 * a + s)) :=
    or_shiftLeft_eq_add _ n 16 (by omega)
  rw [e1, e2, e3]
  have m8 : ∀ x : ℕ, x &&& 0xFF = x % 2 ^ 8 := fun x => Nat.and_pow_two_sub_one_eq_mod x 8
  have m4 : ∀ x : ℕ, x &&& 0xF = x % 2 ^ 4 := fun x => Nat.and_pow_two_sub_one_eq_mod x 4
  simp only [m8, m4, Nat.shiftRight_eq_div_pow]
  norm_num
  omega

theorem shiftLeft_mod_u32 (a k : ℕ) (ha : a < 16) (hk : k ≤ 16) :
    (a <<< k) % 2 ^ 32 = a <<< k := by
  apply Nat.mod_eq_of_lt
  rw [Nat.shiftLeft_eq]
  calc a * 2 ^ k < 16 * 2 ^ k := Nat.mul_lt_mul_of_pos_right ha (Nat.two_pow_pos k)
    _ ≤ 16 * 2 ^ 16 := Nat.mul_le_mul_left 16 (Nat.pow_le_pow_right (by norm_num) hk)
    _ ≤ 2 ^ 32 := by norm_num

theorem modifier_word_disjoint (s a c n : ℕ) (hs : s < 256) (ha : a < 16) (hc : c < 16)
    (hn : n < 16) :
    ((∀ i, Nat.testBit s i = true → i < 8)
        ∧ (∀ i, Nat.testBit (a <<< 8) i = true → 8 ≤ i ∧ i < 12)
        ∧ (∀ i, Nat.testBit (c <<< 12) i = true → 12 ≤ i ∧ i < 16)
        ∧ (∀ i, Nat.testBit (n <<< 16) i = true → 16 ≤ i ∧ i < 20))
      ∧ (s &&& a <<< 8 = 0 ∧ s &&& c <<< 12 = 0 ∧ s &&& n <<< 16 = 0
        ∧ a <<< 8 &&& c <<< 12 = 0 ∧ a <<< 8 &&& n <<< 16 = 0
        ∧ c <<< 12 &&& n <<< 16 = 0) := by
  have rs : ∀ i, Nat.testBit s i = true → i < 8 := fun i h => testBit_lt_of_lt s 8 i hs h
  have ra : ∀ i, Nat.testBit (a <<< 8) i = true → 8 ≤ i ∧ i < 12 := fun i h =>
    testBit_shiftLeft_range a 8 4 i ha h
  have rc : ∀ i, Nat.testBit (c <<< 12) i = true → 12 ≤ i ∧ i < 16 := fun i h =>
    testBit_shiftLeft_range c 12 4 i hc h
  have rn : ∀ i, Nat.testBit (n <<< 16) i = true → 16 ≤ i ∧ i < 20 := fun i h =>
    testBit_shiftLeft_range n 16 4 i hn h
  refine ⟨⟨rs, ra, rc, rn⟩, ?_, ?_, ?_, ?_, ?_, ?_⟩
  · exact and_eq_zero_of_separated _ _ 8 rs (fun i h => (ra i h).1)
  · exact and_eq_zero_of_separated _ _ 8 rs (fun i h => by have := (rc i h).1; omega)
  · exact and_eq_zero_of_separated _ _ 8 rs (fun i h => by have := (rn i h).1; omega)
  · exact and_eq_zero_of_separated _ _ 12 (fun i h => (ra i h).2) (fun i h => (rc i h).1)
  · exact and_eq_zero_of_separated _ _ 12 (fun i h => (ra i h).2)
      (fun i h => by have := (rn i h).1; omega)
  · exact and_eq_zero_of_separated _ _ 16 (fun i h => (rc i h).2) (fun i h => (rn i h).1)

/-- C11: for swizzle selectors in `0..3` and flags in `{0, 1}`, `VFPU_ABS`, `VFPU_CONST` and
`VFPU_NEGATE` are `VFPU_MASK` of the same flags shifted left by 8, 12 and 16; `VFPU_SWIZZLE`
has bits only in 0-7, `VFPU_ABS` only in 8-11, `VFPU_CONST` only in 12-15, `VFPU_NEGATE` only
in 16-19; the four are pairwise bit-disjoint; and in the bitwise or of the four, each field read
back by shifting and masking its own region is the value it was built from. -/
theorem modifier_subfields_independent (x y z w ax ay az aw cx cy cz cw nx ny nz nw : ℤ)
    (hx : 0 ≤ x ∧ x ≤ 3) (hy : 0 ≤ y ∧ y ≤ 3) (hz : 0 ≤ z ∧ z ≤ 3) (hw : 0 ≤ w ∧ w ≤ 3)
    (hax : ax = 0 ∨ ax = 1) (hay : ay = 0 ∨ ay = 1) (haz : az = 0 ∨ az = 1)
    (haw : aw = 0 ∨ aw = 1) (hcx : cx = 0 ∨ cx = 1) (hcy : cy = 0 ∨ cy = 1)
    (hcz : cz = 0 ∨ cz = 1) (hcw : cw = 0 ∨ cw = 1) (hnx : nx = 0 ∨ nx = 1)
    (hny : ny = 0 ∨ ny = 1) (hnz : nz = 0 ∨ nz = 1) (hnw : nw = 0 ∨ nw = 1) :
    (VFPU_ABS ax ay az aw = VFPU_MASK ax ay az aw <<< 8
        ∧ VFPU_CONST cx cy cz cw = VFPU_MASK cx cy cz cw <<< 12
        ∧ VFPU_NEGATE nx ny nz nw = VFPU_MASK nx ny nz nw <<< 16)
      ∧ ((∀ i, Nat.testBit (VFPU_SWIZZLE x y z w) i = true → i < 8)
        ∧ (∀ i, Nat.testBit (VFPU_ABS ax ay az aw) i = true → 8 ≤ i ∧ i < 12)
        ∧ (∀ i, Nat.testBit (VFPU_CONST cx cy cz cw) i = true → 12 ≤ i ∧ i < 16)
        ∧ (∀ i, Nat.testBit (VFPU_NEGATE nx ny nz nw) i = true → 16 ≤ i ∧ i < 20))
      ∧ (VFPU_SWIZZLE x y z w &&& VFPU_ABS ax ay az aw = 0
        ∧ VFPU_SWIZZLE x y z w &&& VFPU_CONST cx cy cz cw = 0
        ∧ VFPU_SWIZZLE x y z w &&& VFPU_NEGATE nx ny nz nw = 0
        ∧ VFPU_ABS ax ay az aw &&& VFPU_CONST cx cy cz cw = 0
        ∧ VFPU_ABS ax ay az aw &&& VFPU_NEGATE nx ny nz nw = 0
        ∧ VFPU_CONST cx cy cz cw &&& VFPU_NEGATE nx ny nz nw = 0)
      ∧ ((VFPU_SWIZZLE x y z w ||| VFPU_ABS ax ay az aw ||| VFPU_CONST cx cy cz cw
            ||| VFPU_NEGATE nx ny nz nw) &&& 0xFF = VFPU_SWIZZLE x y z w
        ∧ ((VFPU_SWIZZLE x y z w ||| VFPU_ABS ax ay az aw ||| VFPU_CONST cx cy cz cw
            ||| VFPU_NEGATE nx ny nz nw) >>> 8) &&& 0xF = VFPU_MASK ax ay az aw
        ∧ ((VFPU_SWIZZLE x y z w ||| VFPU_ABS ax ay az aw ||| VFPU_CONST cx cy cz cw
            ||| VFPU_NEGATE nx ny nz nw) >>> 12) &&& 0xF = VFPU_MASK cx cy cz cw
        ∧ ((VFPU_SWIZZLE x y z w ||| VFPU_ABS ax ay az aw ||| VFPU_CONST cx cy cz cw
            ||| VFPU_NEGATE nx ny nz nw) >>> 16) &&& 0xF = VFPU_MASK nx ny nz nw) := by
  have hs := VFPU_SWIZZLE_lt x y z w hx hy hz hw
  have ha := VFPU_MASK_lt ax ay az aw hax hay haz haw
  have hc := VFPU_MASK_lt cx cy cz cw hcx hcy hcz hcw
  have hn := VFPU_MASK_lt nx ny nz nw hnx hny hnz hnw
  have eA : VFPU_ABS ax ay az aw = VFPU_MASK ax ay az aw <<< 8 :=
    shiftLeft_mod_u32 _ 8 ha (by norm_num)
  have eC : VFPU_CONST cx cy cz cw = VFPU_MASK cx cy cz cw <<< 12 :=
    shiftLeft_mod_u32 _ 12 hc (by norm_num)
  have eN : VFPU_NEGATE nx ny nz nw = VFPU_MASK nx ny nz nw <<< 16 :=
    shiftLeft_mod_u32 _ 16 hn (by norm_num)
  have hd := modifier_word_disjoint _ _ _ _ hs ha hc hn
  have hf := modifier_word_fields _ _ _ _ hs ha hc hn
  rw [eA, eC, eN]
  exact ⟨⟨rfl, rfl, rfl⟩, hd.1, hd.2, hf⟩

/-- Witness for C11 at swizzle `2, 0, 3, 1`, abs `1, 0, 1, 0`, const `0, 1, 1, 0` and
negate `1, 1, 0, 1`: the packed word reads back each field. -/
theorem modifier_subfields_independent_witness :
    (VFPU_SWIZZLE 2 0 3 1 ||| VFPU_ABS 1 0 1 0 ||| VFPU_CONST 0 1 1 0
        ||| VFPU_NEGATE 1 1 0 1) &&& 0xFF = VFPU_SWIZZLE 2 0 3 1
      ∧ ((VFPU_SWIZZLE 2 0 3 1 ||| VFPU_ABS 1 0 1 0 ||| VFPU_CONST 0 1 1 0
        ||| VFPU_NEGATE 1 1 0 1) >>> 8) &&& 0xF = VFPU_MASK 1 0 1 0
      ∧ ((VFPU_SWIZZLE 2 0 3 1 ||| VFPU_ABS 1 0 1 0 ||| VFPU_CONST 0 1 1 0
        ||| VFPU_NEGATE 1 1 0 1) >>> 12) &&& 0xF = VFPU_MASK 0 1 1 0
      ∧ ((VFPU_SWIZZLE 2 0 3 1 ||| VFPU_ABS 1 0 1 0 ||| VFPU_CONST 0 1 1 0
        ||| VFPU_NEGATE 1 1 0 1) >>> 16) &&& 0xF = VFPU_MASK 1 1 0 1 :=
  (modifier_subfields_independent 2 0 3 1 1 0 1 0 0 1 1 0 1 1 0 1
    (by decide) (by decide) (by decide) (by decide)
    (by decide) (by decide) (by decide) (by decide)
    (by decide) (by decide) (by decide) (by decide)
    (by decide) (by decide) (by decide) (by decide)).2.2.2

/-! ## Prefix rewriting -/

theorem testBit_VFPURewritePrefix (w r a i : ℕ) :
    Nat.testBit (VFPURewritePrefix w r a) i
      = ((Nat.testBit w i && xor (decide (i < 32)) (Nat.testBit r i)) || Nat.testBit a i) := by
  unfold VFPURewritePrefix
  rw [Nat.testBit_or, Nat.testBit_and, Nat.testBit_xor]
  have : Nat.testBit 0xFFFFFFFF i = decide (i < 32) := Nat.testBit_two_pow_sub_one 32 i
  rw [this]

/-- C12: for 32-bit words `w` and `add` and every `remove`, `VFPURewritePrefix(w, remove, add)`
is a 32-bit word whose bit `i` is `(w_i and not remove_i) or add_i`, that is
`(w & ~remove) | add`; and rewriting the result again with the same `remove` and `add` gives
the same word. -/
theorem VFPURewritePrefix_idempotent (w remove add : ℕ) (hw : w < 2 ^ 32)
    (ha : add < 2 ^ 32) :
    VFPURewritePrefix w remove add < 2 ^ 32
      ∧ (∀ i, i < 32 → Nat.testBit (VFPURewritePrefix w remove add) i
          = ((Nat.testBit w i && !Nat.testBit remove i) || Nat.testBit add i))
      ∧ VFPURewritePrefix (VFPURewritePrefix w remove add) remove add
          = VFPURewritePrefix w remove add := by
  refine ⟨?_, ?_, ?_⟩
  · apply Nat.lt_pow_two_of_testBit
    intro i hi
    rw [testBit_VFPURewritePrefix]
    have h1 : Nat.testBit w i = false :=
      Nat.testBit_lt_two_pow (lt_of_lt_of_le hw (Nat.pow_le_pow_right (by norm_num) hi))
    have h2 : Nat.testBit add i = false :=
      Nat.testBit_lt_two_pow (lt_of_lt_of_le ha (Nat.pow_le_pow_right (by norm_num) hi))
    simp [h1, h2]
  · intro i hi
    rw [testBit_VFPURewritePrefix]
    simp [hi]
  · apply Nat.eq_of_testBit_eq
    intro i
    rw [testBit_VFPURewritePrefix, testBit_VFPURewritePrefix]
    cases Nat.testBit w i <;> cases Nat.testBit add i <;>
      cases xor (decide (i < 32)) (Nat.testBit remove i) <;> rfl

/-- Witness for C12 at `w = 0xE4`, `remove = 0xFF`, `add = 0x1B`. -/
theorem VFPURewritePrefix_idempotent_witness :
    VFPURewritePrefix (VFPURewritePrefix 0xE4 0xFF 0x1B) 0xFF 0x1B
      = VFPURewritePrefix 0xE4 0xFF 0x1B :=
  (VFPURewritePrefix_idempotent 0xE4 0xFF 0x1B (by norm_num) (by norm_num)).2.2

/-! ## Half-precision field layout -/

theorem half_fields_join (s e f : ℕ) (he : e < 2 ^ 5) (hf : f < 2 ^ 10) :
    s <<< 15 ||| e <<< 10 ||| f = 2 ^ 15 * s + (2 ^ 10 * e + f) := by
  have e1 : f ||| e <<< 10 = 2 ^ 10 * e + f := or_shiftLeft_eq_add f e 10 hf
  have e2 : (2 ^ 10 * e + f) ||| s <<< 15 = 2 ^ 15 * s + (2 ^ 10 * e + f) :=
    or_shiftLeft_eq_add _ s 15 (by omega)
  rw [Nat.or_assoc, Nat.or_comm (s <<< 15), Nat.or_comm (e <<< 10), e1, e2]

/-- C13: for every 16-bit pattern `l`, the fields `sign`, `exp`, `frac` read with the layout
constants (shift, then mask) satisfy `l = (sign << 15) | (exp << 10) | frac`, with
`sign <= 1`, `exp <= VFPU_FLOAT16_EXP_MAX = 0x1F` and `frac <= 0x3FF`: they cover bit 15,
bits 10-14 and bits 0-9 without overlap or gap. -/
theorem float16_fields_partition (l : ℕ) (hl : l < 2 ^ 16) :
    l = (((l >>> VFPU_SH_FLOAT16_SIGN) &&& VFPU_MASK_FLOAT16_SIGN) <<< 15)
          ||| (((l >>> VFPU_SH_FLOAT16_EXP) &&& VFPU_MASK_FLOAT16_EXP) <<< 10)
          ||| ((l >>> VFPU_SH_FLOAT16_FRAC) &&& VFPU_MASK_FLOAT16_FRAC)
      ∧ (l >>> VFPU_SH_FLOAT16_SIGN) &&& VFPU_MASK_FLOAT16_SIGN ≤ 1
      ∧ (l >>> VFPU_SH_FLOAT16_EXP) &&& VFPU_MASK_FLOAT16_EXP ≤ VFPU_FLOAT16_EXP_MAX
      ∧ VFPU_FLOAT16_EXP_MAX = 0x1F
      ∧ (l >>> VFPU_SH_FLOAT16_FRAC) &&& VFPU_MASK_FLOAT16_FRAC ≤ 0x3FF
      ∧ (VFPU_SH_FLOAT16_SIGN = 15 ∧ VFPU_SH_FLOAT16_EXP = 10 ∧ VFPU_SH_FLOAT16_FRAC = 0) := by
  have m1 : ∀ x : ℕ, x &&& 0x1 = x % 2 ^ 1 := fun x => Nat.and_pow_two_sub_one_eq_mod x 1
  have m5 : ∀ x : ℕ, x &&& 0x1f = x % 2 ^ 5 := fun x => Nat.and_pow_two_sub_one_eq_mod x 5
  have m10 : ∀ x : ℕ, x &&& 0x3ff = x % 2 ^ 10 := fun x => Nat.and_pow_two_sub_one_eq_mod x 10
  simp only [VFPU_SH_FLOAT16_SIGN, VFPU_MASK_FLOAT16_SIGN, VFPU_SH_FLOAT16_EXP,
    VFPU_MASK_FLOAT16_EXP, VFPU_SH_FLOAT16_FRAC, VFPU_MASK_FLOAT16_FRAC, VFPU_FLOAT16_EXP_MAX,
    m1, m5, m10, Nat.shiftRight_eq_div_pow]
  have hE : l / 2 ^ 10 % 2 ^ 5 < 2 ^ 5 := Nat.mod_lt _ (by norm_num)
  have hF : l / 2 ^ 0 % 2 ^ 10 < 2 ^ 10 := Nat.mod_lt _ (by norm_num)
  rw [half_fields_join _ _ _ hE hF]
  norm_num at hl ⊢
  omega

/-- Witness for C13 at the pattern `0xBC00` (sign 1, exponent 15, fraction 0). -/
theorem float16_fields_partition_witness :
    (0xBC00 >>> VFPU_SH_FLOAT16_SIGN) &&& VFPU_MASK_FLOAT16_SIGN ≤ 1
      ∧ (0xBC00 >>> VFPU_SH_FLOAT16_EXP) &&& VFPU_MASK_FLOAT16_EXP ≤ VFPU_FLOAT16_EXP_MAX :=
  ⟨(float16_fields_partition 0xBC00 (by norm_num)).2.1,
   (float16_fields_partition 0xBC00 (by norm_num)).2.2.1⟩

/-! ## Overlap classification -/

theorem overlapOfLanes_self (regs : List ℕ) (h : regs ≠ []) :
    overlapOfLanes regs regs = OVERLAP_EQUAL := by
  obtain ⟨r, hr⟩ := List.exists_mem_of_ne_nil regs h
  have h1 : regs.all (fun r => !regs.contains r) = false := by
    rw [List.all_eq_false]
    exact ⟨r, hr, by simp [hr]⟩
  have h2 : regs.all (fun r => regs.contains r) = true := by
    rw [List.all_eq_true]
    intro x hx
    simp [hx]
  unfold overlapOfLanes
  rw [h1, h2]
  rfl

theorem overlapOfLanes_comm (regs1 regs2 : List ℕ) :
    overlapOfLanes regs1 regs2 = overlapOfLanes regs2 regs1 := by
  have h1 : regs1.all (fun r => !regs2.contains r) = regs2.all (fun r => !regs1.contains r) := by
    rw [Bool.eq_iff_iff]
    simp only [List.all_eq_true, Bool.not_eq_true', List.contains_eq_any_beq, List.any_eq_false,
      beq_iff_eq]
    constructor
    · intro h x hx y hy hxy
      exact h y hy x hx hxy.symm
    · intro h x hx y hy hxy
      exact h y hy x hx hxy.symm
  unfold overlapOfLanes
  rw [h1, Bool.and_comm]

/-- C14: for every register code and every valid vector size (1 to 4 lanes), with a lane
decoder that returns as many lanes as the size has, `GetVectorOverlap(reg, size, reg, size)`
is the identical classification `OVERLAP_EQUAL`, not disjoint and not partial. -/
theorem GetVectorOverlap_self (GetVectorRegs : VectorSize → ℤ → List ℕ)
    (hlen : ∀ N r, N ≠ V_Invalid → (GetVectorRegs N r).length = GetNumVectorElements N)
    (reg : ℤ) (size : VectorSize) (hsize : size ≠ V_Invalid) :
    GetVectorOverlap GetVectorRegs reg size reg size = OVERLAP_EQUAL
      ∧ GetVectorOverlap GetVectorRegs reg size reg size ≠ OVERLAP_NONE
      ∧ GetVectorOverlap GetVectorRegs reg size reg size ≠ OVERLAP_PARTIAL := by
  have hne : GetVectorRegs size reg ≠ [] := by
    intro h
    have hl := hlen size reg hsize
    rw [h] at hl
    cases size <;> simp [GetNumVectorElements] at hl hsize
  have h := overlapOfLanes_self _ hne
  unfold GetVectorOverlap
  rw [h]
  exact ⟨rfl, by decide, by decide⟩

/-- Witness for C14: a decoder listing `size` lanes from the register code on, at the code
`0x45` and size `V_Triple`. -/
theorem GetVectorOverlap_self_witness :
    GetVectorOverlap (fun N r => (List.range (GetNumVectorElements N)).map (fun i => r.toNat + i))
        0x45 V_Triple 0x45 V_Triple = OVERLAP_EQUAL :=
  (GetVectorOverlap_self
    (fun N r => (List.range (GetNumVectorElements N)).map (fun i => r.toNat + i))
    (fun _ _ _ => by simp) 0x45 V_Triple (by decide)).1

/-- C15: overlap classification is symmetric: `GetVectorOverlap(reg1, size1, reg2, size2)` is
`GetVectorOverlap(reg2, size2, reg1, size1)`, and `GetMatrixOverlap(m1, m2, size)` is
`GetMatrixOverlap(m2, m1, size)`, for all codes, all sizes and every lane decoder. -/
theorem overlap_symmetric (GetVectorRegs : VectorSize → ℤ → List ℕ)
    (GetMatrixRegs : MatrixSize → ℤ → List ℕ) (reg1 reg2 m1 m2 : ℤ) (size1 size2 : VectorSize)
    (msize : MatrixSize) :
    GetVectorOverlap GetVectorRegs reg1 size1 reg2 size2
        = GetVectorOverlap GetVectorRegs reg2 size2 reg1 size1
      ∧ GetMatrixOverlap GetMatrixRegs m1 m2 msize
        = GetMatrixOverlap GetMatrixRegs m2 m1 msize :=
  ⟨overlapOfLanes_comm _ _, overlapOfLanes_comm _ _⟩

/-! ## Size conversions -/

/-- C16: `GetVectorSize` maps `M_2x2, M_3x3, M_4x4` to `V_Pair, V_Triple, V_Quad` (the same
numeric enum value 2, 3, 4) and `M_Invalid` to `V_Invalid`; `GetMatrixSize` maps
`V_Pair, V_Triple, V_Quad` back to `M_2x2, M_3x3, M_4x4` and both `V_Single` and `V_Invalid`
to `M_Invalid`; so `GetVectorSize(GetMatrixSize(GetVectorSize(s))) = GetVectorSize(s)` for
every matrix size `s`. -/
theorem size_conversions_roundtrip (s : MatrixSize) :
    (GetVectorSize M_2x2 = V_Pair ∧ GetVectorSize M_3x3 = V_Triple
        ∧ GetVectorSize M_4x4 = V_Quad ∧ GetVectorSize M_Invalid = V_Invalid)
      ∧ (GetMatrixSize V_Pair = M_2x2 ∧ GetMatrixSize V_Triple = M_3x3
        ∧ GetMatrixSize V_Quad = M_4x4 ∧ GetMatrixSize V_Single = M_Invalid
        ∧ GetMatrixSize V_Invalid = M_Invalid)
      ∧ (GetVectorSize s).toInt = s.toInt
      ∧ GetMatrixSize (GetVectorSize s) = s
      ∧ GetVectorSize (GetMatrixSize (GetVectorSize s)) = GetVectorSize s := by
  refine ⟨⟨rfl, rfl, rfl, rfl⟩, ⟨rfl, rfl, rfl, rfl, rfl⟩, ?_, ?_, ?_⟩ <;> cases s <;> rfl

/-! ## Half-precision conversion -/

theorem Float16ToFloat32_arith (bias : ℤ) (l : ℕ) :
    Float16ToFloat32 bias l
      = if l / 2 ^ 10 % 2 ^ 5 = 31 then
          (if l % 2 ^ 10 = 0 then infOf (decide (l / 2 ^ 15 % 2 = 1)) else nan)
        else if l / 2 ^ 10 % 2 ^ 5 = 0 then
          ofSign (decide (l / 2 ^ 15 % 2 = 1))
            ((-1) ^ (l / 2 ^ 15 % 2) * (((l % 2 ^ 10 : ℕ) : ℚ) / 2 ^ 10) * 2 ^ (1 - bias))
        else
          num ((-1) ^ (l / 2 ^ 15 % 2) * (1 + ((l % 2 ^ 10 : ℕ) : ℚ) / 2 ^ 10)
            * 2 ^ (((l / 2 ^ 10 % 2 ^ 5 : ℕ) : ℤ) - bias)) := by
  have m1 : ∀ x : ℕ, x &&& 0x1 = x % 2 := fun x => Nat.and_one_is_mod x
  have m5 : ∀ x : ℕ, x &&& 0x1f = x % 2 ^ 5 := fun x => Nat.and_pow_two_sub_one_eq_mod x 5
  have m10 : ∀ x : ℕ, x &&& 0x3ff = x % 2 ^ 10 := fun x =>
    Nat.and_pow_two_sub_one_eq_mod x 10
  simp only [Float16ToFloat32, VFPU_SH_FLOAT16_SIGN, VFPU_MASK_FLOAT16_SIGN,
    VFPU_SH_FLOAT16_EXP, VFPU_MASK_FLOAT16_EXP, VFPU_SH_FLOAT16_FRAC, VFPU_MASK_FLOAT16_FRAC,
    VFPU_FLOAT16_EXP_MAX, m1, m5, m10, Nat.shiftRight_eq_div_pow, pow_zero, Nat.div_one]

theorem Float16ToFloat32_0x7C00 (bias : ℤ) : Float16ToFloat32 bias 0x7C00 = pinf := by
  rw [Float16ToFloat32_arith]
  norm_num [infOf]

theorem Float16ToFloat32_0xFC00 (bias : ℤ) : Float16ToFloat32 bias 0xFC00 = ninf := by
  rw [Float16ToFloat32_arith]
  norm_num [infOf]

/-- C17: `Float16ToFloat32` yields `+0.0f` on `0x0000`, `-0.0f` on `0x8000`, `1.0f` on
`0x3C00` (bias 15), and on every 16-bit pattern with exponent field `0x1F` and fraction
field 0 (these are `0x7C00` and `0xFC00`) the infinity whose sign is bit 15 of the input. -/
theorem Float16ToFloat32_special (bias : ℤ) (l : ℕ) :
    Float16ToFloat32 bias 0x0000 = num 0
      ∧ Float16ToFloat32 bias 0x8000 = negZero
      ∧ Float16ToFloat32 15 0x3C00 = num 1
      ∧ Float16ToFloat32 bias 0x7C00 = pinf
      ∧ Float16ToFloat32 bias 0xFC00 = ninf
      ∧ (l < 2 ^ 16 → (l >>> VFPU_SH_FLOAT16_EXP) &&& VFPU_MASK_FLOAT16_EXP = 0x1F →
          (l >>> VFPU_SH_FLOAT16_FRAC) &&& VFPU_MASK_FLOAT16_FRAC = 0 →
          (l = 0x7C00 ∨ l = 0xFC00)
            ∧ Float16ToFloat32 bias l = infOf (Nat.testBit l 15)) := by
  refine ⟨?_, ?_, ?_, Float16ToFloat32_0x7C00 bias, Float16ToFloat32_0xFC00 bias, ?_⟩
  · rw [Float16ToFloat32_arith]
    norm_num [ofSign]
  · rw [Float16ToFloat32_arith]
    norm_num [ofSign]
  · rw [Float16ToFloat32_arith]
    norm_num
  · intro hl he hf
    have m5 : ∀ x : ℕ, x &&& 0x1f = x % 2 ^ 5 := fun x => Nat.and_pow_two_sub_one_eq_mod x 5
    have m10 : ∀ x : ℕ, x &&& 0x3ff = x % 2 ^ 10 := fun x =>
      Nat.and_pow_two_sub_one_eq_mod x 10
    simp only [VFPU_SH_FLOAT16_EXP, VFPU_MASK_FLOAT16_EXP, VFPU_SH_FLOAT16_FRAC,
      VFPU_MASK_FLOAT16_FRAC, m5, m10, Nat.shiftRight_eq_div_pow] at he hf
    have hcases : l = 0x7C00 ∨ l = 0xFC00 := by
      norm_num at hl he hf ⊢
      omega
    refine ⟨hcases, ?_⟩
    rcases hcases with rfl | rfl
    · rw [Float16ToFloat32_0x7C00]
      have : Nat.testBit 0x7C00 15 = false := by decide
      rw [this]
      rfl
    · rw [Float16ToFloat32_0xFC00]
      have : Nat.testBit 0xFC00 15 = true := by decide
      rw [this]
      rfl

/-- Witness for C17 at the pattern `0xFC00`: negative infinity. -/
theorem Float16ToFloat32_special_witness :
    (0xFC00 = 0x7C00 ∨ 0xFC00 = 0xFC00)
      ∧ Float16ToFloat32 15 0xFC00 = infOf (Nat.testBit 0xFC00 15) :=
  (Float16ToFloat32_special 15 0xFC00).2.2.2.2.2 (by norm_num) (by decide) (by decide)

/-! ## Range reduction on finite angles -/

theorem reduce_num (q : ℚ) :
    sub (num q) (mul (floorf (mul (num q) (num (1 / 4)))) (num 4))
      = num (q - (⌊q / 4⌋ : ℤ) * 4) := by
  have h1 : mul (num q) (num (1 / 4)) = num (q / 4) := by
    by_cases h : q = 0
    · simp [mul, ofSign, h]
    · simp [mul, ofSign, h, div_eq_mul_inv]
  have h3 : mul (num ((⌊q / 4⌋ : ℤ) : ℚ)) (num 4) = num ((⌊q / 4⌋ : ℤ) * 4) := by
    by_cases h : ((⌊q / 4⌋ : ℤ) : ℚ) = 0
    · simp [mul, ofSign, h]
    · simp [mul, ofSign, h]
  rw [h1, floorf, h3, sub]

theorem reduce_negZero :
    sub negZero (mul (floorf (mul negZero (num (1 / 4)))) (num 4)) = num 0 := by
  have h1 : mul negZero (num (1 / 4)) = negZero := by
    norm_num [mul, ofSign]
  have h2 : mul negZero (num 4) = negZero := by
    norm_num [mul, ofSign]
  rw [h1, floorf, h2, sub]

theorem reduced_range (q : ℚ) :
    0 ≤ q - (⌊q / 4⌋ : ℤ) * 4 ∧ q - (⌊q / 4⌋ : ℤ) * 4 < 4 := by
  have h1 : ((⌊q / 4⌋ : ℤ) : ℚ) ≤ q / 4 := Int.floor_le _
  have h2 : q / 4 < (⌊q / 4⌋ : ℤ) + 1 := Int.lt_floor_add_one _
  constructor <;> linarith

/-- In exact rational arithmetic the range reduction `r = a - floor(a * 0.25) * 4` of a finite
angle yields a finite `r` with `0 <= r < 4`, so the only integers `r` can be are `0, 1, 2, 3`;
`-0.0` reduces to `+0.0`; the branch tables of the exact `vfpu_sin` and `vfpu_cos` are applied
to this `r`. -/
theorem range_reduction_exact (sinf cosf : F32 → F32) (q : ℚ) :
    sub (num q) (mul (floorf (mul (num q) (num (1 / 4)))) (num 4))
        = num (q - (⌊q / 4⌋ : ℤ) * 4)
      ∧ sub negZero (mul (floorf (mul negZero (num (1 / 4)))) (num 4)) = num 0
      ∧ 0 ≤ q - (⌊q / 4⌋ : ℤ) * 4
      ∧ q - (⌊q / 4⌋ : ℤ) * 4 < 4
      ∧ (∀ k : ℤ, q - (⌊q / 4⌋ : ℤ) * 4 = k → k = 0 ∨ k = 1 ∨ k = 2 ∨ k = 3)
      ∧ vfpu_sin sinf (num q)
          = (if q - (⌊q / 4⌋ : ℤ) * 4 = 0 ∨ q - (⌊q / 4⌋ : ℤ) * 4 = 2 then num 0
             else if q - (⌊q / 4⌋ : ℤ) * 4 = 1 then num 1
             else if q - (⌊q / 4⌋ : ℤ) * 4 = 3 then num (-1)
             else sinf (mul (num (q - (⌊q / 4⌋ : ℤ) * 4)) M_PI_2))
      ∧ vfpu_cos cosf (num q)
          = (if q - (⌊q / 4⌋ : ℤ) * 4 = 1 ∨ q - (⌊q / 4⌋ : ℤ) * 4 = 3 then num 0
             else if q - (⌊q / 4⌋ : ℤ) * 4 = 0 then num 1
             else if q - (⌊q / 4⌋ : ℤ) * 4 = 2 then num (-1)
             else cosf (mul (num (q - (⌊q / 4⌋ : ℤ) * 4)) M_PI_2)) := by
  have hr := reduced_range q
  refine ⟨reduce_num q, reduce_negZero, hr.1, hr.2, ?_, ?_, ?_⟩
  · intro k hk
    rw [hk] at hr
    have h0 : (0 : ℤ) ≤ k := by exact_mod_cast hr.1
    have h4 : k < 4 := by exact_mod_cast hr.2
    omega
  · unfold vfpu_sin
    simp only [reduce_num, feq_num_num, Bool.or_eq_true, decide_eq_true_eq]
  · unfold vfpu_cos
    simp only [reduce_num, feq_num_num, Bool.or_eq_true, decide_eq_true_eq]

/-! ## Periodicity -/

theorem reduce_shift (q : ℚ) (k : ℤ) :
    q + 4 * k - (⌊(q + 4 * k) / 4⌋ : ℤ) * 4 = q - (⌊q / 4⌋ : ℤ) * 4 := by
  have h : (q + 4 * (k : ℚ)) / 4 = q / 4 + k := by ring
  rw [h, Int.floor_add_int]
  push_cast
  ring

/-- C20: `vfpu_sin` and `vfpu_cos` have period 4: for every finite angle `a` and every
integer `k` (exact arithmetic, `sinf` and `cosf` arbitrary), `vfpu_sin(a + 4k) = vfpu_sin(a)`
and `vfpu_cos(a + 4k) = vfpu_cos(a)`; for `a = -0.0` the sum `a + 4k` is `4k`. -/
theorem vfpu_sin_cos_periodic (sinf cosf : F32 → F32) (q : ℚ) (k : ℤ) :
    vfpu_sin sinf (num (q + 4 * k)) = vfpu_sin sinf (num q)
      ∧ vfpu_cos cosf (num (q + 4 * k)) = vfpu_cos cosf (num q)
      ∧ vfpu_sin sinf (num (0 + 4 * k)) = vfpu_sin sinf negZero
      ∧ vfpu_cos cosf (num (0 + 4 * k)) = vfpu_cos cosf negZero := by
  have hs : ∀ p : ℚ, vfpu_sin sinf (num (p + 4 * k)) = vfpu_sin sinf (num p) := by
    intro p
    unfold vfpu_sin
    simp only [reduce_num, reduce_shift]
  have hc : ∀ p : ℚ, vfpu_cos cosf (num (p + 4 * k)) = vfpu_cos cosf (num p) := by
    intro p
    unfold vfpu_cos
    simp only [reduce_num, reduce_shift]
  have zs : vfpu_sin sinf negZero = vfpu_sin sinf (num 0) := by
    unfold vfpu_sin
    simp only [reduce_num, reduce_negZero]
    norm_num
  have zc : vfpu_cos cosf negZero = vfpu_cos cosf (num 0) := by
    unfold vfpu_cos
    simp only [reduce_num, reduce_negZero]
    norm_num
  exact ⟨hs q, hc q, by rw [zs]; exact hs 0, by rw [zc]; exact hc 0⟩

/-! ## Clamp idempotence -/

theorem fle_refl_of_fle (x y : F32) (h : fle x y = true) :
    fle x x = true ∧ fle y y = true := by
  cases x <;> cases y <;> simp_all [fle]

theorem feq_of_fle_fle (x y : F32) (h1 : fle x y = true) (h2 : fle y x = true) :
    feq x y = true := by
  cases x <;> cases y <;> simp_all [fle, feq] <;> linarith

theorem fle_total (x y : F32) (hx : x ≠ nan) (hy : y ≠ nan) (h : fle x y = false) :
    fle y x = true := by
  cases x <;> cases y <;> simp_all [fle] <;> linarith

theorem feq_refl_of_ne_nan (x : F32) (hx : x ≠ nan) : feq x x = true := by
  cases x <;> simp_all [feq]

/-- C19, counterexample: with `min = +0.0 <= max = -0.0` and `v = -5`, the first clamp gives
`+0.0` and clamping that again gives `-0.0`, a different value; so idempotence fails for
these non-NaN `min <= max`. -/
theorem vfpu_clamp_idempotent_counterexample :
    fle (num 0) negZero = true
      ∧ vfpu_clamp (num (-5)) (num 0) negZero = num 0
      ∧ vfpu_clamp (num 0) (num 0) negZero = negZero
      ∧ vfpu_clamp (vfpu_clamp (num (-5)) (num 0) negZero) (num 0) negZero
          ≠ vfpu_clamp (num (-5)) (num 0) negZero := by
  have e1 : vfpu_clamp (num (-5)) (num 0) negZero = num 0 := by
    norm_num [vfpu_clamp, fge, fle]
  have e2 : vfpu_clamp (num 0) (num 0) negZero = negZero := by
    norm_num [vfpu_clamp, fge, fle]
  refine ⟨by simp [fle], e1, e2, ?_⟩
  rw [e1, e2]
  decide

/-- C19, amended: for non-NaN `min <= max`, when `min` and `max` are not two zeros of opposite
sign (if `min == max` then they are the same value), `vfpu_clamp` is idempotent for every `v`,
NaN included. For every non-NaN `min <= max`: NaN is a fixed point, for non-NaN `v` the result
lies in the closed interval `[min, max]`, and clamping it again gives a result that compares
equal (`==`) to it. -/
theorem vfpu_clamp_idempotent (v min max : F32) (hle : fle min max = true) :
    ((feq min max = true → min = max) →
        vfpu_clamp (vfpu_clamp v min max) min max = vfpu_clamp v min max)
      ∧ vfpu_clamp (vfpu_clamp nan min max) min max = vfpu_clamp nan min max
      ∧ (v ≠ nan → fle min (vfpu_clamp v min max) = true
          ∧ fle (vfpu_clamp v min max) max = true)
      ∧ (v ≠ nan →
          feq (vfpu_clamp (vfpu_clamp v min max) min max) (vfpu_clamp v min max) = true) := by
  have hmin : min ≠ nan := by
    intro h
    rw [h] at hle
    simp [fle] at hle
  have hmax : max ≠ nan := by
    intro h
    rw [h] at hle
    cases min <;> simp [fle] at hle
  have hrefl := fle_refl_of_fle min max hle
  have hnan : vfpu_clamp nan min max = nan := by
    cases max <;> cases min <;> simp [vfpu_clamp, fge, fle]
  -- the three possible first results
  by_cases c1 : fge v max = true
  · have r1 : vfpu_clamp v min max = max := by simp [vfpu_clamp, c1]
    have r2 : vfpu_clamp max min max = max := by simp [vfpu_clamp, fge, hrefl.2]
    refine ⟨fun _ => by rw [r1, r2], by rw [hnan, hnan], fun _ => ?_, fun _ => ?_⟩
    · rw [r1]
      exact ⟨hle, hrefl.2⟩
    · rw [r1, r2]
      exact feq_refl_of_ne_nan max hmax
  · have c1f : fge v max = false := by simpa using c1
    by_cases c2 : fle v min = true
    · have r1 : vfpu_clamp v min max = min := by simp [vfpu_clamp, c1f, c2]
      refine ⟨fun hz => ?_, by rw [hnan, hnan], fun _ => ?_, fun _ => ?_⟩
      · rw [r1]
        by_cases c3 : fge min max = true
        · have hfe : feq min max = true := feq_of_fle_fle min max hle c3
          have := hz hfe
          simp [vfpu_clamp, c3, this]
        · have c3f : fge min max = false := by simpa using c3
          simp [vfpu_clamp, c3f, hrefl.1]
      · rw [r1]
        exact ⟨hrefl.1, hle⟩
      · rw [r1]
        by_cases c3 : fge min max = true
        · have r2 : vfpu_clamp min min max = max := by simp [vfpu_clamp, c3]
          rw [r2]
          exact feq_of_fle_fle max min c3 hle
        · have c3f : fge min max = false := by simpa using c3
          have r2 : vfpu_clamp min min max = min := by simp [vfpu_clamp, c3f, hrefl.1]
          rw [r2]
          exact feq_refl_of_ne_nan min hmin
    · have c2f : fle v min = false := by simpa using c2
      have r1 : vfpu_clamp v min max = v := by simp [vfpu_clamp, c1f, c2f]
      have r2 : vfpu_clamp (vfpu_clamp v min max) min max = v := by
        rw [r1]
        exact r1
      refine ⟨fun _ => by rw [r2, r1], by rw [hnan, hnan], fun hv => ?_, fun hv => ?_⟩
      · rw [r1]
        exact ⟨fle_total v min hv hmin c2f, fle_total max v hmax hv c1f⟩
      · rw [r2, r1]
        exact feq_refl_of_ne_nan v hv

/-- Witness for C19 at `v = 7`, `min = -1`, `max = 2`. -/
theorem vfpu_clamp_idempotent_witness :
    fle (num (-1)) (num 2) = true
      ∧ vfpu_clamp (vfpu_clamp (num 7) (num (-1)) (num 2)) (num (-1)) (num 2)
          = vfpu_clamp (num 7) (num (-1)) (num 2) :=
  ⟨by norm_num [fle],
   (vfpu_clamp_idempotent (num 7) (num (-1)) (num 2) (by norm_num [fle])).1
     (fun h => by norm_num [feq] at h)⟩

/-! ## Range reduction in binary32 -/

theorem roundHalfEven_of_lt (x : ℚ) (f : ℕ) (h1 : (f : ℚ) ≤ x) (h2 : x < f + 1 / 2) :
    roundHalfEven x = f := by
  have hx : 0 ≤ x := le_trans (Nat.cast_nonneg f) h1
  have hf : ⌊x⌋₊ = f := by
    rw [Nat.floor_eq_iff hx]
    exact ⟨h1, by linarith⟩
  unfold roundHalfEven
  rw [hf, if_pos (by linarith)]

theorem roundHalfEven_of_gt (x : ℚ) (f : ℕ) (h1 : (f : ℚ) + 1 / 2 < x) (h2 : x < f + 1) :
    roundHalfEven x = f + 1 := by
  have hx : 0 ≤ x := le_trans (Nat.cast_nonneg f) (by linarith)
  have hf : ⌊x⌋₊ = f := by
    rw [Nat.floor_eq_iff hx]
    exact ⟨by linarith, h2⟩
  unfold roundHalfEven
  rw [hf, if_neg (by linarith), if_pos (by linarith)]

theorem round32_num (q : ℚ) (T k f : ℕ) (hT : |q| * 2 ^ 149 = T) (h1 : 2 ^ k ≤ T)
    (h2 : T < 2 ^ (k + 1)) (hf : roundHalfEven ((T : ℚ) / 2 ^ (k - 23)) = f) (h0 : f ≠ 0)
    (hlt : f * 2 ^ (k - 23) < 2 ^ 277) :
    round32 (num q)
      = num ((if q < 0 then -1 else 1) * ((f * 2 ^ (k - 23) : ℕ) : ℚ) / 2 ^ 149) := by
  have hlog : Nat.log 2 T = k := Nat.log_eq_of_pow_le_of_lt_pow h1 h2
  have hn : f * 2 ^ (k - 23) ≠ 0 := Nat.mul_ne_zero h0 (by positivity)
  simp only [round32, hT, Nat.floor_natCast, hlog, hf]
  rw [if_neg hn, if_neg (by omega)]

theorem round32_underflow (q : ℚ) (h : |q| * 2 ^ 149 < 1 / 2) :
    round32 (num q) = if q < 0 then negZero else num 0 := by
  have ht : 0 ≤ |q| * 2 ^ 149 := by positivity
  have hfl : ⌊|q| * 2 ^ 149⌋₊ = 0 := by
    rw [Nat.floor_eq_zero]
    linarith
  have hr : roundHalfEven (|q| * 2 ^ 149) = 0 :=
    roundHalfEven_of_lt _ 0 (by simp) (by simpa using h)
  simp [round32, hfl, hr]

/-- The angle `-1e-10f`: the binary32 value nearest to `-1e-10`, that is
`-14411519 * 2^-57`. -/
theorem round32_neg_1em10 :
    round32 (num (-(14411519 / 2 ^ 57))) = num (-(14411519 / 2 ^ 57)) := by
  rw [round32_num (-(14411519 / 2 ^ 57)) (14411519 * 2 ^ 92) 115 14411519
    (by rw [abs_of_neg (by norm_num)]; norm_num) (by norm_num) (by norm_num)
    (roundHalfEven_of_lt _ _ (by norm_num) (by norm_num)) (by norm_num) (by norm_num)]
  norm_num

theorem reduce_binary32_neg_1em10 :
    sub32 (num (-(14411519 / 2 ^ 57)))
        (mul32 (floorf (mul32 (num (-(14411519 / 2 ^ 57))) (num (1 / 4)))) (num 4))
      = num 4 := by
  have h1 : mul32 (num (-(14411519 / 2 ^ 57))) (num (1 / 4)) = num (-(14411519 / 2 ^ 59)) := by
    have e : mul (num (-(14411519 / 2 ^ 57))) (num (1 / 4)) = num (-(14411519 / 2 ^ 59)) := by
      norm_num [mul, ofSign]
    rw [mul32, e, round32_num (-(14411519 / 2 ^ 59)) (14411519 * 2 ^ 90) 113 14411519
      (by rw [abs_of_neg (by norm_num)]; norm_num) (by norm_num) (by norm_num)
      (roundHalfEven_of_lt _ _ (by norm_num) (by norm_num)) (by norm_num) (by norm_num)]
    norm_num
  have h2 : floorf (num (-(14411519 / 2 ^ 59))) = num (-1) := by
    have hf : ⌊(-(14411519 / 2 ^ 59) : ℚ)⌋ = -1 := by
      rw [Int.floor_eq_iff]
      norm_num
    rw [floorf, hf]
    norm_num
  have h3 : mul32 (num (-1)) (num 4) = num (-4) := by
    have e : mul (num (-1)) (num 4) = num (-4) := by
      norm_num [mul, ofSign]
    rw [mul32, e, round32_num (-4) (2 ^ 151) 151 (2 ^ 23)
      (by rw [abs_of_neg (by norm_num)]; norm_num) (by norm_num) (by norm_num)
      (roundHalfEven_of_lt _ _ (by norm_num) (by norm_num)) (by norm_num) (by norm_num)]
    norm_num
  have h4 : sub32 (num (-(14411519 / 2 ^ 57))) (num (-4)) = num 4 := by
    have e : sub (num (-(14411519 / 2 ^ 57))) (num (-4)) = num (4 - 14411519 / 2 ^ 57) := by
      norm_num [sub]
    rw [sub32, e, round32_num (4 - 14411519 / 2 ^ 57) (2 ^ 151 - 14411519 * 2 ^ 92) 150
      (2 ^ 24 - 1 + 1)
      (by rw [abs_of_pos (by norm_num)]; norm_num) (by norm_num) (by norm_num)
      (roundHalfEven_of_gt _ _ (by norm_num) (by norm_num)) (by norm_num) (by norm_num)]
    norm_num
  rw [h1, h2, h3, h4]

theorem mul32_four_M_PI_2 : mul32 (num 4) M_PI_2 = num (13176795 / 2097152) := by
  have e : mul (num 4) M_PI_2 = num (13176795 / 2097152) := by
    norm_num [mul, ofSign, M_PI_2]
  rw [mul32, e, round32_num (13176795 / 2097152) (13176795 * 2 ^ 128) 151 13176795
    (by rw [abs_of_pos (by norm_num)]; norm_num) (by norm_num) (by norm_num)
    (roundHalfEven_of_lt _ _ (by norm_num) (by norm_num)) (by norm_num) (by norm_num)]
  norm_num

theorem reduce_binary32_min_subnormal :
    sub32 (num (-(1 / 2 ^ 149)))
        (mul32 (floorf (mul32 (num (-(1 / 2 ^ 149))) (num (1 / 4)))) (num 4))
      = num (-(1 / 2 ^ 149)) := by
  have h1 : mul32 (num (-(1 / 2 ^ 149))) (num (1 / 4)) = negZero := by
    have e : mul (num (-(1 / 2 ^ 149))) (num (1 / 4)) = num (-(1 / 2 ^ 151)) := by
      norm_num [mul, ofSign]
    rw [mul32, e, round32_underflow _ (by rw [abs_of_neg (by norm_num)]; norm_num)]
    norm_num
  have h3 : mul32 negZero (num 4) = negZero := by
    have e : mul negZero (num 4) = negZero := by
      norm_num [mul, ofSign]
    rw [mul32, e]
    rfl
  have h4 : sub32 (num (-(1 / 2 ^ 149))) negZero = num (-(1 / 2 ^ 149)) := by
    have e : sub (num (-(1 / 2 ^ 149))) negZero = num (-(1 / 2 ^ 149)) := rfl
    rw [sub32, e, round32_num (-(1 / 2 ^ 149)) 1 0 1
      (by rw [abs_of_neg (by norm_num)]; norm_num) (by norm_num) (by norm_num)
      (roundHalfEven_of_lt _ _ (by norm_num) (by norm_num)) (by norm_num) (by norm_num)]
    norm_num
  rw [h1, floorf, h3, h4]

/-- C18, on the code in binary32: at the angle `-1e-10f` (the float `-14411519 * 2^-57`) the
range reduction made first by `vfpu_sin`, `vfpu_cos` and `vfpu_sincos` yields exactly `4.0f`,
outside the half-open period `0 <= r < 4`: the integer 4 is none of the special-cased points,
so the three functions pass `4.0f * (float)M_PI_2` to `sinf`, `cosf` and `sincosf`. At the
angle `-2^-149` the product `angle * 0.25f` underflows to `-0.0` and the reduced angle is
`-2^-149`, negative. In exact arithmetic the first reduced angle is `4 - 14411519 * 2^-57`,
below 4. -/
theorem range_reduction_binary32_leaves_period (linux : Bool) (sincosf : F32 → F32 × F32)
    (sinf cosf : F32 → F32) :
    round32 (num (-(14411519 / 2 ^ 57))) = num (-(14411519 / 2 ^ 57))
      ∧ sub32 (num (-(14411519 / 2 ^ 57)))
          (mul32 (floorf (mul32 (num (-(14411519 / 2 ^ 57))) (num (1 / 4)))) (num 4))
        = num 4
      ∧ vfpu_sin_binary32 sinf (num (-(14411519 / 2 ^ 57)))
        = sinf (num (13176795 / 2097152))
      ∧ vfpu_cos_binary32 cosf (num (-(14411519 / 2 ^ 57)))
        = cosf (num (13176795 / 2097152))
      ∧ vfpu_sincos_binary32 linux sincosf sinf cosf (num (-(14411519 / 2 ^ 57)))
        = (if linux then sincosf (num (13176795 / 2097152))
           else (sinf (num (13176795 / 2097152)), cosf (num (13176795 / 2097152))))
      ∧ sub32 (num (-(1 / 2 ^ 149)))
          (mul32 (floorf (mul32 (num (-(1 / 2 ^ 149))) (num (1 / 4)))) (num 4))
        = num (-(1 / 2 ^ 149))
      ∧ sub (num (-(14411519 / 2 ^ 57)))
          (mul (floorf (mul (num (-(14411519 / 2 ^ 57))) (num (1 / 4)))) (num 4))
        = num (4 - 14411519 / 2 ^ 57) := by
  refine ⟨round32_neg_1em10, reduce_binary32_neg_1em10, ?_, ?_, ?_,
    reduce_binary32_min_subnormal, ?_⟩
  · unfold vfpu_sin_binary32
    simp only [reduce_binary32_neg_1em10, mul32_four_M_PI_2, feq_num_num]
    norm_num
  · unfold vfpu_cos_binary32
    simp only [reduce_binary32_neg_1em10, mul32_four_M_PI_2, feq_num_num]
    norm_num
  · unfold vfpu_sincos_binary32
    simp only [reduce_binary32_neg_1em10, mul32_four_M_PI_2, feq_num_num]
    norm_num
  · rw [reduce_num]
    have hf : ⌊(-(14411519 / 2 ^ 57) : ℚ) / 4⌋ = -1 := by
      rw [Int.floor_eq_iff]
      norm_num
    rw [hf]
    norm_num

end VFPU
